import Mathlib

/-!
HOTP (RFC 4226) value derivation of QAuthenticator: `src/hotp.cpp`

A shallow embedding of `HOTP::calcChecksum`, `HOTP::getMovingFactor`, `HOTP::truncate`,
`HOTP::generateHMACSHA1` and `HOTP::generateHOTP`, followed by theorems about them.

Conventions of the embedding

* `int` is a 32-bit and `long` a 64-bit two's-complement integer.  Values are carried as `Int`;
  bitwise operators work on the bit pattern (`toBits` / `ofBits`), and arithmetic that can leave
  the range is wrapped with `intWrap`.
* `%` and `/` of C++ truncate toward zero: `Int.tmod` and `Int.tdiv`.
* A `char` stored in a `QByteArray` is kept as its raw bit pattern (`Byte = Fin 256`); reading it
  with `QByteArray::at` yields an `int` that depends on whether `char` is signed on the platform
  (`charToInt`).
* A read outside an array or a `QByteArray` is not defined by the code: the embedding returns
  `none` there.
* The Security Builder HMAC functions and `QString::toUtf8` are library code: they are fields of
  `Provider`.  `qDebug()` output is not modelled.
-/

namespace HOTP

/-! ## Machine integers and bytes -/

/-- Raw bit pattern of a `char`. -/
abbrev Byte := Fin 256

/-- Bit pattern of `x` as a `w`-bit two's-complement integer. -/
def toBits (w : Nat) (x : Int) : Nat := (x % 2 ^ w).toNat

/-- Value of the low `w` bits of `n` read as a two's-complement integer. -/
def ofBits (w : Nat) (n : Nat) : Int :=
  if n % 2 ^ w < 2 ^ (w - 1) then ((n % 2 ^ w : Nat) : Int)
  else ((n % 2 ^ w : Nat) : Int) - 2 ^ w

/-- Result of an `int` computation whose mathematical value is `x` (wrapping at 32 bits). -/
def intWrap (x : Int) : Int := ofBits 32 (toBits 32 x)

/-- Operator `&` on `int`. -/
def intAnd (a b : Int) : Int := ofBits 32 (toBits 32 a &&& toBits 32 b)

/-- Operator `|` on `int`. -/
def intOr (a b : Int) : Int := ofBits 32 (toBits 32 a ||| toBits 32 b)

/-- Operator `<<` on `int`. -/
def intShl (a : Int) (k : Nat) : Int := ofBits 32 (toBits 32 a <<< k)

/-- Operator `&` on `long`. -/
def longAnd (a b : Int) : Int := ofBits 64 (toBits 64 a &&& toBits 64 b)

/-- Operator `>>` on `long` (arithmetic shift). -/
def longShr (a : Int) (k : Nat) : Int := a >>> k

/-- Conversion of an unsigned 64-bit value to `long`. -/
def toLong (c : Nat) : Int := ofBits 64 c

/-- Conversion of an integer to `char`: the low eight bits are stored. -/
def toChar (x : Int) : Byte := Fin.ofNat (toBits 8 x)

/-- Integer promotion of a `char` read from memory; `signedChar` tells whether `char` is a
signed type on the platform. -/
def charToInt (signedChar : Bool) (b : Byte) : Int :=
  if signedChar && decide (128 ≤ b.val) then (b.val : Int) - 256 else (b.val : Int)

/-- Read of a built-in `int` array at an `int` index. -/
def arrayAt (a : List Int) (i : Int) : Option Int :=
  if 0 ≤ i then a[i.toNat]? else none

/-! ## QByteArray -/

/-- A `QByteArray`: its bytes and the allocation size reported by `capacity()`. -/
structure QByteArray where
  data : List Byte
  cap : Nat
deriving DecidableEq, Repr

/-- `QByteArray::capacity()`. -/
def QByteArray.capacity (b : QByteArray) : Int := (b.cap : Int)

/-- `QByteArray::length()`. -/
def QByteArray.length (b : QByteArray) : Int := (b.data.length : Int)

/-- `QByteArray::at(i)`, defined for `0 <= i < size()`. -/
def QByteArray.charAt (signedChar : Bool) (b : QByteArray) (i : Int) : Option Int :=
  if 0 ≤ i ∧ i < b.length then (b.data[i.toNat]?).map (charToInt signedChar) else none

/-! ## calcChecksum -/

/-- Table `doubleDigits` of `calcChecksum`. -/
def doubleDigits : List Int := [0, 2, 4, 6, 8, 1, 3, 5, 7, 9]

/-- The `while (0 < digits--)` loop of `calcChecksum`; the first argument is the number of
iterations still to run, then `num`, `doubleDigit` and `total`. -/
def calcChecksumLoop : Nat → Int → Bool → Int → Option Int
  | 0, _, _, total => some total
  | k + 1, num, doubleDigit, total => do
    let digit := Int.tmod num 10
    let num := Int.tdiv num 10
    let digit ← if doubleDigit then arrayAt doubleDigits digit else some digit
    calcChecksumLoop k num (!doubleDigit) (intWrap (total + digit))

/-- `HOTP::calcChecksum(long num, int digits)`.  The loop runs `digits` times when `digits` is
positive and not at all otherwise; the value of `digits` after the failing test is never read. -/
def calcChecksum (num : Int) (digits : Int) : Option Int := do
  let total ← calcChecksumLoop digits.toNat num true 0
  let result := Int.tmod total 10
  some (if result > 0 then 10 - result else result)

/-! ## getMovingFactor -/

/-- The `for (int i = size - 1; i >= 0; i--)` loop of `getMovingFactor`; the first argument is
`i + 1`. -/
def getMovingFactorLoop : Nat → List Byte → Int → List Byte
  | 0, text, _ => text
  | i + 1, text, counter =>
    getMovingFactorLoop i (text.set i (toChar (longAnd counter 0xff))) (longShr counter 8)

/-- `HOTP::getMovingFactor(long counter)`.  The eight bytes made by `resize` are all overwritten
by the loop. -/
def getMovingFactor (counter : Int) : QByteArray :=
  { data := getMovingFactorLoop 8 (List.replicate 8 0) counter, cap := 8 }

/-! ## truncate -/

/-- `HOTP::truncate(QByteArray *digest, int truncationOffset)`. -/
def truncate (signedChar : Bool) (digest : QByteArray) (truncationOffset : Int) : Option Int := do
  let digestLen := digest.capacity
  let last ← digest.charAt signedChar (digestLen - 1)
  let offset :=
    if 0 ≤ truncationOffset ∧ truncationOffset < digestLen - 4 then truncationOffset
    else intAnd last 0xf
  let b0 ← digest.charAt signedChar offset
  let b1 ← digest.charAt signedChar (offset + 1)
  let b2 ← digest.charAt signedChar (offset + 2)
  let b3 ← digest.charAt signedChar (offset + 3)
  some (intOr (intOr (intOr (intShl (intAnd b0 0x7f) 24) (intShl (intAnd b1 0xff) 16))
    (intShl (intAnd b2 0xff) 8)) (intAnd b3 0xff))

/-! ## The HMAC-SHA1 provider and generateHMACSHA1 -/

/-- Modelled from the spec: the constant `SB_HMAC_SHA1_160_TAG_LEN` of `husha1.h`, the length of
an HMAC-SHA1 digest (20 bytes). -/
def SB_HMAC_SHA1_160_TAG_LEN : Nat := 20

/-- `QString`. -/
abbrev QString := String

/-- Library code called by `hotp.cpp`.  `Ctx` is the state designated by an `sb_Context`.
Every HMAC function returns its status code first.

* `hmacBegin key`: `hu_HMACSHA1Begin`; the second component is the context it stores through
  `&hmacContext`, `none` when it leaves the field untouched.
* `hmacHash ctx msg`: `hu_HMACSHA1Hash`; returns the updated context.
* `hmacEnd ctx`: `hu_HMACSHA1End`; returns the value left in the context field and the tag it
  writes to the output buffer, `none` when the buffer is left untouched. -/
structure Provider (Ctx : Type) where
  signedChar : Bool
  toUtf8 : QString → List Byte
  hmacBegin : List Byte → Int × Option Ctx
  hmacHash : Ctx → List Byte → Int × Ctx
  hmacEnd : Ctx → Int × Ctx × Option (Fin SB_HMAC_SHA1_160_TAG_LEN → Byte)

/-- The mutable part of an `HOTP` object: the field `hmacContext`. -/
structure HOTPState (Ctx : Type) where
  hmacContext : Ctx

/-- `HOTP::generateHMACSHA1(QString sharedKey, QByteArray counter)`.  `stack` is the content of
the local buffer `messageDigestHMAC` before the calls.  The status codes are assigned to `rc`
and never read.  The array built by `QByteArray(const char *, int size)` holds `size` bytes and
reports `size` as its capacity. -/
def generateHMACSHA1 {Ctx : Type} (P : Provider Ctx) (self : HOTPState Ctx)
    (stack : Fin SB_HMAC_SHA1_160_TAG_LEN → Byte) (sharedKey : QString) (counter : QByteArray) :
    QByteArray × HOTPState Ctx :=
  let key_ba := P.toUtf8 sharedKey
  let r1 := P.hmacBegin key_ba
  let ctx1 := r1.2.getD self.hmacContext
  let r2 := P.hmacHash ctx1 counter.data
  let r3 := P.hmacEnd r2.2
  let messageDigestHMAC := r3.2.2.getD stack
  ({ data := List.ofFn messageDigestHMAC, cap := SB_HMAC_SHA1_160_TAG_LEN },
   { hmacContext := r3.2.1 })

/-! ## generateHOTP -/

/-- Table `digitsPower` of `generateHOTP`. -/
def digitsPower : List Int :=
  [1, 10, 100, 1000, 10000, 100000, 1000000, 10000000, 100000000]

/-- `HOTP::generateHOTP(QString secret, long movingFactor, int codeDigits, bool addChecksum,
int truncationOffset)`: the returned `int` and the state of the object after the call. -/
def generateHOTP {Ctx : Type} (P : Provider Ctx) (self : HOTPState Ctx)
    (stack : Fin SB_HMAC_SHA1_160_TAG_LEN → Byte) (secret : QString) (movingFactor : Int)
    (codeDigits : Int) (addChecksum : Bool) (truncationOffset : Int) :
    Option (Int × HOTPState Ctx) := do
  let counter := getMovingFactor movingFactor
  let r := generateHMACSHA1 P self stack secret counter
  let digest := r.1
  let snum ← truncate P.signedChar digest truncationOffset
  let power ← arrayAt digitsPower codeDigits
  let otp := Int.tmod snum power
  let hotp ←
    if addChecksum then
      (calcChecksum otp codeDigits).map (fun c => intWrap (intWrap (otp * 10) + c))
    else some otp
  some (hotp, r.2)

/-! ## Reference notions used to state the properties -/

/-- Unsigned value of the byte at index `i` (0 outside the array). -/
def byteAt (b : QByteArray) (i : Nat) : Nat := (b.data.getD i 0).val

/-- The decoder of the round-trip property: eight bytes read as an unsigned big-endian integer,
the sum of `byte[i] * 256^(7-i)`. -/
def decode (b : QByteArray) : Nat :=
  ((List.range 8).map (fun i => byteAt b i * 256 ^ (7 - i))).sum

/-- Big-endian 32-bit value of the four bytes at indices `o .. o+3`. -/
def be32 (b : QByteArray) (o : Nat) : Nat :=
  byteAt b o * 2 ^ 24 + byteAt b (o + 1) * 2 ^ 16 + byteAt b (o + 2) * 2 ^ 8 + byteAt b (o + 3)

/-- Substitution of a decimal digit through the table `{0,2,4,6,8,1,3,5,7,9}`. -/
def substitute (d : Nat) : Nat := [0, 2, 4, 6, 8, 1, 3, 5, 7, 9].getD d 0

/-- The alternating weighted digit sum of the low `digits` decimal digits of `num`: the digits
are walked from the least significant one, which is substituted, and every second digit after it
is substituted too. -/
def weightedDigitSum (num digits : Nat) : Nat :=
  ((List.range digits).map
    (fun i => if i % 2 = 0 then substitute (num / 10 ^ i % 10) else num / 10 ^ i % 10)).sum

/-- The weighted digit sum computed digit by digit: `count` digits of `n` are walked from the
least significant one, `double` telling whether the current digit is substituted. -/
def digitSumFrom : Nat → Nat → Bool → Nat
  | 0, _, _ => 0
  | count + 1, n, double =>
    (if double then substitute (n % 10) else n % 10) + digitSumFrom count (n / 10) (!double)

/-- Luhn weight of one digit: doubled digits have 9 subtracted when the double exceeds 9. -/
def luhnDigit (double : Bool) (d : Nat) : Nat :=
  if double then (if 2 * d > 9 then 2 * d - 9 else 2 * d) else d

/-- Sum of the Luhn weights of the decimal digits of `n`, walked from the right; `double` tells
whether the rightmost digit is doubled.  The first argument bounds the number of digits. -/
def luhnSum : Nat → Nat → Bool → Nat
  | 0, _, _ => 0
  | fuel + 1, n, double =>
    if n = 0 then 0 else luhnDigit double (n % 10) + luhnSum fuel (n / 10) (!double)

/-- The standard Luhn check of a number: walking its decimal digits from the right and doubling
every second digit, the sum is divisible by 10. -/
def luhnValid (n : Nat) : Prop := luhnSum n n false % 10 = 0

instance (n : Nat) : Decidable (luhnValid n) := by unfold luhnValid; infer_instance

/-- The provider computes the tag `tag` for `key` and `msg`: `hu_HMACSHA1Begin` stores a context
for the key, and hashing `msg` in it and ending writes `tag` to the output buffer. -/
def ProviderYields {Ctx : Type} (P : Provider Ctx) (key msg tag : List Byte) : Prop :=
  ∃ ctx : Ctx, (P.hmacBegin key).2 = some ctx ∧
    ((P.hmacEnd (P.hmacHash ctx msg).2).2.2).map List.ofFn = some tag

/-- The secret of RFC 4226 Appendix D, ASCII `12345678901234567890`. -/
def rfcSecret : List Byte :=
  [0x31, 0x32, 0x33, 0x34, 0x35, 0x36, 0x37, 0x38, 0x39, 0x30,
   0x31, 0x32, 0x33, 0x34, 0x35, 0x36, 0x37, 0x38, 0x39, 0x30]

/-- HMAC-SHA1 digest of RFC 4226 Appendix D for counter 0. -/
def rfcDigest0 : List Byte :=
  [0xcc, 0x93, 0xcf, 0x18, 0x50, 0x8d, 0x94, 0x93, 0x4c, 0x64,
   0xb6, 0x5d, 0x8b, 0xa7, 0x66, 0x7f, 0xb7, 0xcd, 0xe4, 0xb0]

/-- HMAC-SHA1 digest of RFC 4226 Appendix D for counter 1. -/
def rfcDigest1 : List Byte :=
  [0x75, 0xa4, 0x8a, 0x19, 0xd4, 0xcb, 0xe1, 0x00, 0x64, 0x4e,
   0x8a, 0xc1, 0x39, 0x7e, 0xea, 0x74, 0x7a, 0x2d, 0x33, 0xab]

/-- A test double of the provider that knows the two digests above: the context accumulates the
hashed message, and the tag is looked up from it.  `char` is signed and `toUtf8` maps every
character to the low byte of its code point. -/
def rfcProvider : Provider (List Byte) where
  signedChar := true
  toUtf8 := fun s => s.toList.map (fun c => Fin.ofNat c.toNat)
  hmacBegin := fun _ => (0, some [])
  hmacHash := fun ctx msg => (0, ctx ++ msg)
  hmacEnd := fun ctx =>
    (0, [], some (fun i => (if ctx = [0, 0, 0, 0, 0, 0, 0, 0] then rfcDigest0 else rfcDigest1).getD i 0))

/-- The offset `truncate` settles on, lines 83 to 87 of `hotp.cpp`: the low nibble of the last
byte, replaced by `truncationOffset` when that lies in `[0, digestLen - 4)`. -/
def truncateOffset (signedChar : Bool) (digest : QByteArray) (truncationOffset : Int) :
    Option Int := do
  let digestLen := digest.capacity
  let last ← digest.charAt signedChar (digestLen - 1)
  some (if 0 ≤ truncationOffset ∧ truncationOffset < digestLen - 4 then truncationOffset
    else intAnd last 0xf)

/-- What a run of `generateHOTP` does that is visible outside the function, in program order:
the three provider calls of `generateHMACSHA1`, the read of `digitsPower[index]` and the
`return`.  There is no event for an error report: `hotp.cpp` has no `throw` and no error
return. -/
inductive Event where
  | hmacBegin (key : List Byte)
  | hmacHash (msg : List Byte)
  | hmacEnd
  | readDigitsPower (index : Int)
  | returned (hotp : Int)
deriving DecidableEq, Repr

/-- The provider calls of `generateHMACSHA1`, lines 135 to 137, none of them guarded. -/
def generateHMACSHA1Events {Ctx : Type} (P : Provider Ctx) (sharedKey : QString)
    (counter : QByteArray) : List Event :=
  [Event.hmacBegin (P.toUtf8 sharedKey), Event.hmacHash counter.data, Event.hmacEnd]

/-- The events of a run of `generateHOTP`, statement by statement.  The list ends without
`returned` when the run has read outside an array: the code defines no behaviour from there on
and nothing further is recorded. -/
def generateHOTPEvents {Ctx : Type} (P : Provider Ctx) (self : HOTPState Ctx)
    (stack : Fin SB_HMAC_SHA1_160_TAG_LEN → Byte) (secret : QString) (movingFactor : Int)
    (codeDigits : Int) (addChecksum : Bool) (truncationOffset : Int) : List Event :=
  let counter := getMovingFactor movingFactor
  let r := generateHMACSHA1 P self stack secret counter
  generateHMACSHA1Events P secret counter ++
    match truncate P.signedChar r.1 truncationOffset with
    | none => []
    | some snum =>
      Event.readDigitsPower codeDigits ::
        match arrayAt digitsPower codeDigits with
        | none => []
        | some power =>
          match (if addChecksum then
              (calcChecksum (Int.tmod snum power) codeDigits).map
                (fun c => intWrap (intWrap (Int.tmod snum power * 10) + c))
            else some (Int.tmod snum power)) with
          | none => []
          | some hotp => [Event.returned hotp]

/-- A conformant HMAC provider: `hu_HMACSHA1Begin` always stores a context through
`&hmacContext` and `hu_HMACSHA1End` always writes the tag. -/
def Conformant {Ctx : Type} (P : Provider Ctx) : Prop :=
  (∀ key : List Byte, ∃ ctx : Ctx, (P.hmacBegin key).2 = some ctx) ∧
  (∀ ctx : Ctx, ∃ tag : Fin SB_HMAC_SHA1_160_TAG_LEN → Byte, (P.hmacEnd ctx).2.2 = some tag)

/-- A provider whose three HMAC functions report the status `rc` and do nothing else:
`hu_HMACSHA1Begin` stores no context and `hu_HMACSHA1End` writes no tag. -/
def failingProvider (rc : Int) : Provider Unit where
  signedChar := false
  toUtf8 := fun s => s.toList.map (fun c => Fin.ofNat c.toNat)
  hmacBegin := fun _ => (rc, none)
  hmacHash := fun ctx _ => (rc, ctx)
  hmacEnd := fun ctx => (rc, ctx, none)

/-- The number `n` with its decimal digit of weight `10^j` replaced by the digit `e`. -/
def replaceDigit (n j e : Nat) : Nat := n - n / 10 ^ j % 10 * 10 ^ j + e * 10 ^ j

/-! ## Machine-integer lemmas -/

theorem toBits_natCast (w n : Nat) (h : n < 2 ^ w) : toBits w (n : Int) = n := by
  unfold toBits
  have : ((n : Int) % 2 ^ w) = n := by
    apply Int.emod_eq_of_lt (by omega)
    exact_mod_cast h
  rw [this]; simp

theorem ofBits_of_lt (w n : Nat) (hw : 0 < w) (h : n < 2 ^ (w - 1)) : ofBits w n = n := by
  unfold ofBits
  have h2 : 2 ^ (w - 1) ≤ 2 ^ w := Nat.pow_le_pow_right (by norm_num) (by omega)
  have : n % 2 ^ w = n := Nat.mod_eq_of_lt (by omega)
  rw [this, if_pos h]

theorem intAnd_mask (x : Int) (k : Nat) (hk : k ≤ 31) :
    intAnd x ((2 ^ k - 1 : Nat) : Int) = x % 2 ^ k := by
  unfold intAnd
  have hlt : 2 ^ k - 1 < 2 ^ 32 := by
    have : 2 ^ k ≤ 2 ^ 31 := Nat.pow_le_pow_right (by norm_num) hk
    omega
  rw [toBits_natCast 32 _ hlt, Nat.and_pow_two_sub_one_eq_mod]
  have hb : toBits 32 x % 2 ^ k < 2 ^ (32 - 1) := by
    have : 2 ^ k ≤ 2 ^ 31 := Nat.pow_le_pow_right (by norm_num) hk
    have := Nat.mod_lt (toBits 32 x) (Nat.pos_pow_of_pos k (by norm_num) : 0 < 2 ^ k)
    omega
  rw [ofBits_of_lt 32 _ (by norm_num) hb]
  unfold toBits
  have hx : 0 ≤ x % 2 ^ 32 := Int.emod_nonneg _ (by norm_num)
  rw [Int.natCast_mod, Int.toNat_of_nonneg hx]
  have hd : ((2 ^ k : Nat) : Int) ∣ 2 ^ 32 := by
    refine ⟨2 ^ (32 - k), ?_⟩
    push_cast
    rw [← pow_add]
    have : k + (32 - k) = 32 := by omega
    rw [this]; norm_num
  push_cast
  push_cast at hd
  exact Int.emod_emod_of_dvd x hd

theorem intAnd_0xff (x : Int) : intAnd x 0xff = x % 256 := by
  have := intAnd_mask x 8 (by norm_num)
  norm_num at this; exact this

theorem charToInt_emod (sc : Bool) (b : Byte) : charToInt sc b % 256 = b.val := by
  unfold charToInt
  have := b.isLt
  split <;> omega

theorem intAnd_0x7f (x : Int) : intAnd x 0x7f = x % 128 := by
  have := intAnd_mask x 7 (by norm_num)
  norm_num at this; exact this

theorem intAnd_0xf (x : Int) : intAnd x 0xf = x % 16 := by
  have := intAnd_mask x 4 (by norm_num)
  norm_num at this; exact this

theorem intShl_natCast (n k : Nat) (h : n * 2 ^ k < 2 ^ 31) :
    intShl (n : Int) k = ((n * 2 ^ k : Nat) : Int) := by
  unfold intShl
  have hk : n ≤ n * 2 ^ k := Nat.le_mul_of_pos_right n (Nat.pos_pow_of_pos k (by norm_num))
  rw [toBits_natCast 32 n (by omega), Nat.shiftLeft_eq, ofBits_of_lt 32 _ (by norm_num) h]

theorem intOr_natCast (a b : Nat) (ha : a < 2 ^ 31) (hb : b < 2 ^ 31) :
    intOr (a : Int) (b : Int) = ((a ||| b : Nat) : Int) := by
  unfold intOr
  rw [toBits_natCast 32 a (by omega), toBits_natCast 32 b (by omega),
    ofBits_of_lt 32 _ (by norm_num) (Nat.or_lt_two_pow ha hb)]


theorem or_chain (a b c d : Nat) (hb : b < 256) (hc : c < 256) (hd : d < 256) :
    a * 2 ^ 24 ||| b * 2 ^ 16 ||| c * 2 ^ 8 ||| d = a * 2 ^ 24 + b * 2 ^ 16 + c * 2 ^ 8 + d := by
  have h1 := @Nat.mul_add_lt_is_or 24 (b * 2 ^ 16) (by omega) a
  have h2 := @Nat.mul_add_lt_is_or 16 (c * 2 ^ 8) (by omega) (a * 2 ^ 8 + b)
  have h3 := @Nat.mul_add_lt_is_or 8 d (by omega) (a * 2 ^ 16 + b * 2 ^ 8 + c)
  have e1 : a * 2 ^ 24 = 2 ^ 24 * a := Nat.mul_comm _ _
  have e2 : 2 ^ 24 * a + b * 2 ^ 16 = 2 ^ 16 * (a * 2 ^ 8 + b) := by omega
  have e3 : 2 ^ 16 * (a * 2 ^ 8 + b) + c * 2 ^ 8 = 2 ^ 8 * (a * 2 ^ 16 + b * 2 ^ 8 + c) := by
    omega
  rw [e1, ← h1, e2, ← h2, e3, ← h3]

theorem charAt_natCast (sc : Bool) (d : QByteArray) (i : Nat) (h : i < d.data.length) :
    d.charAt sc (i : Int) = some (charToInt sc (d.data.getD i 0)) := by
  unfold QByteArray.charAt QByteArray.length
  rw [if_pos ⟨by omega, by exact_mod_cast h⟩]
  simp [List.getD, List.getElem?_eq_getElem h]

theorem charAt_none (sc : Bool) (d : QByteArray) (i : Int)
    (h : i < 0 ∨ (d.data.length : Int) ≤ i) : d.charAt sc i = none := by
  unfold QByteArray.charAt QByteArray.length
  rw [if_neg (by omega)]

theorem combine_bytes (sc : Bool) (b0 b1 b2 b3 : Byte) :
    intOr (intOr (intOr (intShl (intAnd (charToInt sc b0) 0x7f) 24)
      (intShl (intAnd (charToInt sc b1) 0xff) 16))
      (intShl (intAnd (charToInt sc b2) 0xff) 8)) (intAnd (charToInt sc b3) 0xff)
    = ((b0.val % 128 * 2 ^ 24 + b1.val * 2 ^ 16 + b2.val * 2 ^ 8 + b3.val : Nat) : Int) := by
  have h0 : charToInt sc b0 % 128 = ((b0.val % 128 : Nat) : Int) := by
    unfold charToInt; have := b0.isLt; split <;> omega
  have l0 := b0.isLt
  have l1 := b1.isLt
  have l2 := b2.isLt
  have l3 := b3.isLt
  rw [intAnd_0x7f, intAnd_0xff, intAnd_0xff, intAnd_0xff, h0, charToInt_emod, charToInt_emod,
    charToInt_emod]
  rw [intShl_natCast _ 24 (by omega), intShl_natCast _ 16 (by omega),
    intShl_natCast _ 8 (by omega)]
  rw [intOr_natCast _ _ (by omega) (by omega)]
  have hA : b0.val % 128 * 2 ^ 24 ||| b1.val * 2 ^ 16 < 2 ^ 31 :=
    Nat.or_lt_two_pow (by omega) (by omega)
  rw [intOr_natCast _ _ hA (by omega)]
  have hB : b0.val % 128 * 2 ^ 24 ||| b1.val * 2 ^ 16 ||| b2.val * 2 ^ 8 < 2 ^ 31 :=
    Nat.or_lt_two_pow hA (by omega)
  rw [intOr_natCast _ _ hB (by omega)]
  rw [or_chain _ _ _ _ l1 l2 l3]


theorem truncate_at (sc : Bool) (d : QByteArray) (off : Int) (o : Nat)
    (hl : d.data.length = 20) (hc : d.cap = 20) (ho : o ≤ 15)
    (hoff : (if 0 ≤ off ∧ off < 16 then off else ((byteAt d 19 % 16 : Nat) : Int)) = (o : Int)) :
    truncate sc d off = some ((be32 d o % 2 ^ 31 : Nat) : Int) := by
  have h19 : d.charAt sc (d.capacity - 1) = some (charToInt sc (d.data.getD 19 0)) := by
    have : d.capacity - 1 = ((19 : Nat) : Int) := by simp [QByteArray.capacity, hc]
    rw [this]; exact charAt_natCast sc d 19 (by omega)
  have hlast : intAnd (charToInt sc (d.data.getD 19 0)) 0xf = ((byteAt d 19 % 16 : Nat) : Int) := by
    rw [intAnd_0xf]
    have := (d.data.getD 19 0).isLt
    unfold byteAt charToInt
    split <;> omega
  have hcap : d.capacity - 4 = 16 := by simp [QByteArray.capacity, hc]
  have e0 := charAt_natCast sc d o (by omega)
  have e1 := charAt_natCast sc d (o + 1) (by omega)
  have e2 := charAt_natCast sc d (o + 2) (by omega)
  have e3 := charAt_natCast sc d (o + 3) (by omega)
  push_cast at e1 e2 e3
  unfold truncate
  simp only [h19, hlast, hcap, hoff, e0, e1, e2, e3, Option.bind_eq_bind, Option.some_bind,
    combine_bytes]
  congr 2
  unfold be32 byteAt
  have := (d.data.getD o 0).isLt
  have := (d.data.getD (o + 1) 0).isLt
  have := (d.data.getD (o + 2) 0).isLt
  have := (d.data.getD (o + 3) 0).isLt
  omega


theorem nat_bits_formula (a b c d : Nat) (hb : b < 256) (hc : c < 256) (hd : d < 256) :
    (a &&& 0x7F) <<< 24 ||| (b &&& 0xFF) <<< 16 ||| (c &&& 0xFF) <<< 8 ||| (d &&& 0xFF)
      = a % 128 * 2 ^ 24 + b * 2 ^ 16 + c * 2 ^ 8 + d := by
  have h7 : a &&& 0x7F = a % 128 := Nat.and_pow_two_sub_one_eq_mod a 7
  have hb8 : b &&& 0xFF = b := by
    have := Nat.and_pow_two_sub_one_eq_mod b 8
    rw [this]; exact Nat.mod_eq_of_lt hb
  have hc8 : c &&& 0xFF = c := by
    have := Nat.and_pow_two_sub_one_eq_mod c 8
    rw [this]; exact Nat.mod_eq_of_lt hc
  have hd8 : d &&& 0xFF = d := by
    have := Nat.and_pow_two_sub_one_eq_mod d 8
    rw [this]; exact Nat.mod_eq_of_lt hd
  rw [h7, hb8, hc8, hd8, Nat.shiftLeft_eq, Nat.shiftLeft_eq, Nat.shiftLeft_eq,
    or_chain _ _ _ _ hb hc hd]

theorem byteAt_lt (d : QByteArray) (i : Nat) : byteAt d i < 256 := (d.data.getD i 0).isLt

theorem be32_mod (d : QByteArray) (o : Nat) :
    be32 d o % 2 ^ 31
      = byteAt d o % 128 * 2 ^ 24 + byteAt d (o + 1) * 2 ^ 16 + byteAt d (o + 2) * 2 ^ 8
        + byteAt d (o + 3) := by
  have := byteAt_lt d o
  have := byteAt_lt d (o + 1)
  have := byteAt_lt d (o + 2)
  have := byteAt_lt d (o + 3)
  unfold be32
  omega

/-! ## Truncation -/

theorem truncate_total (signedChar : Bool) (digest : QByteArray) (truncationOffset : Int)
    (hlen : digest.data.length = 20) (hcap : digest.cap = 20) :
    ∃ n : Nat, n < 2 ^ 31 ∧ truncate signedChar digest truncationOffset = some (n : Int) := by
  have hb := byteAt_lt digest 19
  have key : ∃ o : Nat, o ≤ 15 ∧
      (if 0 ≤ truncationOffset ∧ truncationOffset < 16 then truncationOffset
        else ((byteAt digest 19 % 16 : Nat) : Int)) = (o : Int) := by
    by_cases h : 0 ≤ truncationOffset ∧ truncationOffset < 16
    · exact ⟨truncationOffset.toNat, by omega, by rw [if_pos h]; omega⟩
    · exact ⟨byteAt digest 19 % 16, by omega, by rw [if_neg h]⟩
  obtain ⟨o, ho, hoff⟩ := key
  exact ⟨be32 digest o % 2 ^ 31, Nat.mod_lt _ (by norm_num),
    truncate_at signedChar digest truncationOffset o hlen hcap ho hoff⟩

/-- C2: for every 20-byte digest and every truncation offset, `truncate` returns a value in
`[0, 0x7FFFFFFF]` whose bit 31 is zero, whether `char` is signed or not. -/
theorem truncate_range (signedChar : Bool) (digest : QByteArray) (truncationOffset : Int)
    (hlen : digest.data.length = 20) (hcap : digest.cap = 20) :
    ∃ v : Int, truncate signedChar digest truncationOffset = some v ∧ 0 ≤ v ∧ v ≤ 0x7FFFFFFF ∧
      (toBits 32 v).testBit 31 = false := by
  obtain ⟨n, hn, h⟩ := truncate_total signedChar digest truncationOffset hlen hcap
  refine ⟨_, h, by omega, by omega, ?_⟩
  rw [toBits_natCast 32 _ (by omega)]
  exact Nat.testBit_lt_two_pow hn

/-- C2 (witness): the digest of RFC 4226 for counter 0, with signed `char` and offset -1. -/
theorem truncate_range_witness :
    ∃ v : Int, truncate true
      ⟨[0xcc, 0x93, 0xcf, 0x18, 0x50, 0x8d, 0x94, 0x93, 0x4c, 0x64, 0xb6, 0x5d, 0x8b, 0xa7,
        0x66, 0x7f, 0xb7, 0xcd, 0xe4, 0xb0], 20⟩ (-1) = some v ∧ 0 ≤ v ∧ v ≤ 0x7FFFFFFF ∧
      (toBits 32 v).testBit 31 = false :=
  truncate_range true _ (-1) (by decide) (by decide)

/-- C3: dynamic path.  For a 20-byte digest `d` and a truncation offset that is negative or at
least 16, `truncate` reads at `o = d[19] & 0xF` and returns
`(d[o] & 0x7F) << 24 | (d[o+1] & 0xFF) << 16 | (d[o+2] & 0xFF) << 8 | (d[o+3] & 0xFF)` over the
unsigned byte values, which is the big-endian value of `d[o..o+3]` modulo `2^31`. -/
theorem truncate_dynamic (signedChar : Bool) (d : QByteArray) (truncationOffset : Int)
    (hlen : d.data.length = 20) (hcap : d.cap = 20)
    (hoff : truncationOffset < 0 ∨ 16 ≤ truncationOffset) :
    truncate signedChar d truncationOffset
      = some (((byteAt d (byteAt d 19 &&& 0xF) &&& 0x7F) <<< 24
          ||| (byteAt d ((byteAt d 19 &&& 0xF) + 1) &&& 0xFF) <<< 16
          ||| (byteAt d ((byteAt d 19 &&& 0xF) + 2) &&& 0xFF) <<< 8
          ||| (byteAt d ((byteAt d 19 &&& 0xF) + 3) &&& 0xFF) : Nat) : Int)
    ∧ truncate signedChar d truncationOffset
      = some ((be32 d (byteAt d 19 &&& 0xF) % 2 ^ 31 : Nat) : Int) := by
  have hnib : byteAt d 19 &&& 0xF = byteAt d 19 % 16 := Nat.and_pow_two_sub_one_eq_mod _ 4
  have ho : byteAt d 19 % 16 ≤ 15 := by omega
  have hsel : (if 0 ≤ truncationOffset ∧ truncationOffset < 16 then truncationOffset
      else ((byteAt d 19 % 16 : Nat) : Int)) = ((byteAt d 19 % 16 : Nat) : Int) := by
    rw [if_neg (by omega)]
  have h := truncate_at signedChar d truncationOffset _ hlen hcap ho hsel
  rw [hnib, nat_bits_formula _ _ _ _ (byteAt_lt _ _) (byteAt_lt _ _) (byteAt_lt _ _),
    ← be32_mod]
  exact ⟨h, h⟩

/-- C3 (witness): the digest of RFC 4226 for counter 1 (last byte `0xab`, offset 11) with
truncation offset 16. -/
theorem truncate_dynamic_witness :
    truncate false
      ⟨[0x75, 0xa4, 0x8a, 0x19, 0xd4, 0xcb, 0xe1, 0x00, 0x64, 0x4e, 0x8a, 0xc1, 0x39, 0x7e,
        0xea, 0x74, 0x7a, 0x2d, 0x33, 0xab], 20⟩ 16 = some 1094287082 :=
  (truncate_dynamic false
    ⟨[0x75, 0xa4, 0x8a, 0x19, 0xd4, 0xcb, 0xe1, 0x00, 0x64, 0x4e, 0x8a, 0xc1, 0x39, 0x7e,
      0xea, 0x74, 0x7a, 0x2d, 0x33, 0xab], 20⟩ 16 (by decide) (by decide) (by decide)).1

/-- C4: override path.  For a 20-byte digest `d` and a truncation offset `h` in `[0,15]`,
`truncate` reads at `h` itself and returns
`(d[h] & 0x7F) << 24 | d[h+1] << 16 | d[h+2] << 8 | d[h+3]` over the unsigned byte values; any
20-byte digest with the same bytes at `h .. h+3` gives the same result, whatever its byte 19 and
its other bytes are. -/
theorem truncate_override (signedChar : Bool) (d : QByteArray) (h : Nat)
    (hlen : d.data.length = 20) (hcap : d.cap = 20) (hh : h ≤ 15) :
    truncate signedChar d (h : Int)
      = some (((byteAt d h &&& 0x7F) <<< 24 ||| byteAt d (h + 1) <<< 16
          ||| byteAt d (h + 2) <<< 8 ||| byteAt d (h + 3) : Nat) : Int)
    ∧ ∀ d2 : QByteArray, d2.data.length = 20 → d2.cap = 20 →
        byteAt d2 h = byteAt d h → byteAt d2 (h + 1) = byteAt d (h + 1) →
        byteAt d2 (h + 2) = byteAt d (h + 2) → byteAt d2 (h + 3) = byteAt d (h + 3) →
        truncate signedChar d2 (h : Int) = truncate signedChar d (h : Int) := by
  have hsel : ∀ e : QByteArray, (if 0 ≤ (h : Int) ∧ (h : Int) < 16 then (h : Int)
      else ((byteAt e 19 % 16 : Nat) : Int)) = (h : Int) := by
    intro e; rw [if_pos (by omega)]
  have key : ∀ e : QByteArray, e.data.length = 20 → e.cap = 20 →
      truncate signedChar e (h : Int) = some ((be32 e h % 2 ^ 31 : Nat) : Int) :=
    fun e h1 h2 => truncate_at signedChar e h h h1 h2 hh (hsel e)
  constructor
  · have hf := nat_bits_formula (byteAt d h) (byteAt d (h + 1)) (byteAt d (h + 2))
      (byteAt d (h + 3)) (byteAt_lt _ _) (byteAt_lt _ _) (byteAt_lt _ _)
    have m1 : byteAt d (h + 1) &&& 0xFF = byteAt d (h + 1) := by
      rw [Nat.and_pow_two_sub_one_eq_mod _ 8]; exact Nat.mod_eq_of_lt (byteAt_lt _ _)
    have m2 : byteAt d (h + 2) &&& 0xFF = byteAt d (h + 2) := by
      rw [Nat.and_pow_two_sub_one_eq_mod _ 8]; exact Nat.mod_eq_of_lt (byteAt_lt _ _)
    have m3 : byteAt d (h + 3) &&& 0xFF = byteAt d (h + 3) := by
      rw [Nat.and_pow_two_sub_one_eq_mod _ 8]; exact Nat.mod_eq_of_lt (byteAt_lt _ _)
    rw [m1, m2, m3] at hf
    rw [hf, ← be32_mod]
    exact key d hlen hcap
  · intro d2 l2 c2 e0 e1 e2 e3
    rw [key d hlen hcap, key d2 l2 c2]
    unfold be32
    rw [e0, e1, e2, e3]

/-- C4 (witness): the digest of RFC 4226 for counter 0 read at the forced offset 15. -/
theorem truncate_override_witness :
    truncate true
      ⟨[0xcc, 0x93, 0xcf, 0x18, 0x50, 0x8d, 0x94, 0x93, 0x4c, 0x64, 0xb6, 0x5d, 0x8b, 0xa7,
        0x66, 0x7f, 0xb7, 0xcd, 0xe4, 0xb0], 20⟩ 15 = some 0x7fb7cde4 :=
  (truncate_override true
    ⟨[0xcc, 0x93, 0xcf, 0x18, 0x50, 0x8d, 0x94, 0x93, 0x4c, 0x64, 0xb6, 0x5d, 0x8b, 0xa7,
      0x66, 0x7f, 0xb7, 0xcd, 0xe4, 0xb0], 20⟩ 15 (by decide) (by decide) (by decide)).1

/-! ## Checksum -/

theorem intWrap_natCast (n : Nat) (h : n < 2 ^ 31) : intWrap (n : Int) = n := by
  unfold intWrap
  rw [toBits_natCast 32 n (by omega), ofBits_of_lt 32 n (by norm_num) h]

theorem substitute_le (d : Nat) (h : d < 10) : substitute d ≤ 9 := by
  interval_cases d <;> decide

theorem arrayAt_doubleDigits (d : Nat) (h : d < 10) :
    arrayAt doubleDigits (d : Int) = some ((substitute d : Nat) : Int) := by
  interval_cases d <;> rfl

theorem digitSumFrom_zero (k : Nat) : ∀ dbl : Bool, digitSumFrom k 0 dbl = 0 := by
  induction k with
  | zero => intro dbl; rfl
  | succ k ih =>
    intro dbl
    cases dbl <;> simp [digitSumFrom, ih, substitute]

theorem calcChecksumLoop_eq (k : Nat) : ∀ (m n : Nat) (dbl : Bool) (total : Nat),
    n < 10 ^ m → total + 9 * m < 2 ^ 31 →
    calcChecksumLoop k (n : Int) dbl (total : Int)
      = some ((total + digitSumFrom k n dbl : Nat) : Int) := by
  induction k with
  | zero => intro m n dbl total _ _; simp [calcChecksumLoop, digitSumFrom]
  | succ k ih =>
    intro m n dbl total hn ht
    have hd : n % 10 < 10 := Nat.mod_lt _ (by norm_num)
    have hs := substitute_le (n % 10) hd
    have hmod : Int.tmod (n : Int) 10 = ((n % 10 : Nat) : Int) := (Int.ofNat_tmod n 10).symm
    have hdiv : Int.tdiv (n : Int) 10 = ((n / 10 : Nat) : Int) := (Int.ofNat_tdiv n 10).symm
    have hrest : n / 10 < 10 ^ (m - 1) ∧
        (m = 0 → n % 10 = 0) ∧ (0 < m → 9 * (m - 1) + 9 = 9 * m) := by
      rcases Nat.eq_zero_or_pos m with h0 | hpos
      · subst h0
        simp at hn
        subst hn
        simp
      · refine ⟨?_, by omega, by omega⟩
        have : 10 ^ m = 10 * 10 ^ (m - 1) := by
          rw [← pow_succ']; congr 1; omega
        rw [this] at hn
        exact Nat.div_lt_of_lt_mul hn
    obtain ⟨h1, h2, h3⟩ := hrest
    have hs0 : m = 0 → substitute (n % 10) = 0 := by
      intro h; rw [h2 h]; rfl
    simp only [calcChecksumLoop, hmod, hdiv, Option.bind_eq_bind]
    cases dbl with
    | true =>
      have hb : total + substitute (n % 10) + 9 * (m - 1) < 2 ^ 31 := by
        rcases Nat.eq_zero_or_pos m with h0 | hpos
        · rw [hs0 h0]; omega
        · have := h3 hpos; omega
      have hw : intWrap ((total : Int) + ((substitute (n % 10) : Nat) : Int))
          = ((total + substitute (n % 10) : Nat) : Int) := by
        rw [← Int.ofNat_add]; exact intWrap_natCast _ (by omega)
      simp only [if_true, arrayAt_doubleDigits _ hd, Option.some_bind, hw, Bool.not_true]
      rw [ih (m - 1) (n / 10) false _ h1 hb]
      simp only [digitSumFrom, if_true, Bool.not_true]
      congr 2; omega
    | false =>
      have hb : total + n % 10 + 9 * (m - 1) < 2 ^ 31 := by
        rcases Nat.eq_zero_or_pos m with h0 | hpos
        · rw [h2 h0]; omega
        · have := h3 hpos; omega
      have hw : intWrap ((total : Int) + ((n % 10 : Nat) : Int))
          = ((total + n % 10 : Nat) : Int) := by
        rw [← Int.ofNat_add]; exact intWrap_natCast _ (by omega)
      simp only [Bool.false_eq_true, if_false, Option.some_bind, hw, Bool.not_false]
      rw [ih (m - 1) (n / 10) true _ h1 hb]
      simp only [digitSumFrom, Bool.false_eq_true, if_false, Bool.not_false]
      congr 2; omega

theorem digitSumFrom_eq_sum (k : Nat) : ∀ (n : Nat) (dbl : Bool),
    digitSumFrom k n dbl = ((List.range k).map (fun i =>
      if (i % 2 = 0 ↔ dbl = true) then substitute (n / 10 ^ i % 10) else n / 10 ^ i % 10)).sum := by
  induction k with
  | zero => intro n dbl; rfl
  | succ k ih =>
    intro n dbl
    rw [List.range_succ_eq_map, List.map_cons, List.sum_cons, List.map_map, digitSumFrom, ih]
    congr 1
    · cases dbl <;> simp
    · congr 1
      apply List.map_congr_left
      intro i _
      have hdiv : n / 10 ^ (i + 1) = n / 10 / 10 ^ i := by
        rw [Nat.div_div_eq_div_mul, pow_succ']
      have hpar : ((i + 1) % 2 = 0 ↔ dbl = true) ↔ (i % 2 = 0 ↔ (!dbl) = true) := by
        cases dbl <;> simp <;> omega
      simp only [Function.comp, Nat.succ_eq_add_one, hdiv, hpar]

theorem weightedDigitSum_eq (num digits : Nat) :
    weightedDigitSum num digits = digitSumFrom digits num true := by
  rw [digitSumFrom_eq_sum]
  unfold weightedDigitSum
  simp

theorem calcChecksum_eq (n : Nat) (digits : Int) (hn : n < 2 ^ 63) :
    calcChecksum (n : Int) digits
      = some (((10 - digitSumFrom digits.toNat n true % 10) % 10 : Nat) : Int) := by
  have hloop := calcChecksumLoop_eq digits.toNat 19 n true 0 (by omega) (by norm_num)
  simp only [Nat.cast_zero, Nat.zero_add] at hloop
  unfold calcChecksum
  rw [hloop]
  simp only [Option.bind_eq_bind, Option.some_bind]
  have hmod : Int.tmod ((digitSumFrom digits.toNat n true : Nat) : Int) 10
      = ((digitSumFrom digits.toNat n true % 10 : Nat) : Int) := (Int.ofNat_tmod _ 10).symm
  rw [hmod]
  congr 1
  have := Nat.mod_lt (digitSumFrom digits.toNat n true) (by norm_num : 0 < 10)
  split <;> omega

/-- C7: for every non-negative `long` value `num` and every `digits` (zero and negative values
included, and values beyond the decimal length of `num`), `calcChecksum` returns a value in
`[0,9]` equal to `(10 - total mod 10) mod 10`, `total` being the alternating weighted digit sum
of the low `digits` decimal digits of `num` with the least significant digit substituted
first. -/
theorem calcChecksum_spec (num digits : Int) (h0 : 0 ≤ num) (hmax : num < 2 ^ 63) :
    ∃ c : Int, calcChecksum num digits = some c ∧ 0 ≤ c ∧ c ≤ 9 ∧
      c = (((10 - weightedDigitSum num.toNat digits.toNat % 10) % 10 : Nat) : Int) := by
  have hnum : num = ((num.toNat : Nat) : Int) := (Int.toNat_of_nonneg h0).symm
  have hlt : num.toNat < 2 ^ 63 := by omega
  refine ⟨_, ?_, ?_, ?_, rfl⟩
  · rw [weightedDigitSum_eq]
    conv_lhs => rw [hnum]
    exact calcChecksum_eq num.toNat digits hlt
  · omega
  · omega

/-- C7 (witness): `calcChecksum(755224, 6)` is 3. -/
theorem calcChecksum_spec_witness :
    ∃ c : Int, calcChecksum 755224 6 = some c ∧ 0 ≤ c ∧ c ≤ 9 ∧
      c = (((10 - weightedDigitSum (755224 : Int).toNat (6 : Int).toNat % 10) % 10 : Nat) : Int) :=
  calcChecksum_spec 755224 6 (by decide) (by decide)

/-! ## Luhn validity -/

theorem luhnDigit_true (d : Nat) (h : d < 10) : luhnDigit true d = substitute d := by
  interval_cases d <;> rfl

theorem luhnSum_eq_digitSumFrom (fuel : Nat) : ∀ (n : Nat) (dbl : Bool) (k : Nat),
    n ≤ fuel → n < 10 ^ k → luhnSum fuel n dbl = digitSumFrom k n dbl := by
  induction fuel with
  | zero =>
    intro n dbl k hn _
    have : n = 0 := by omega
    subst this
    rw [digitSumFrom_zero]; rfl
  | succ fuel ih =>
    intro n dbl k hn hk
    rcases Nat.eq_zero_or_pos n with h0 | hpos
    · subst h0
      rw [digitSumFrom_zero]; simp [luhnSum]
    · cases k with
      | zero => simp at hk; omega
      | succ k =>
        have hdiv : n / 10 < 10 ^ k := by
          rw [pow_succ'] at hk
          exact Nat.div_lt_of_lt_mul hk
        have hfuel : n / 10 ≤ fuel := by omega
        have hd : n % 10 < 10 := Nat.mod_lt _ (by norm_num)
        have hne : n ≠ 0 := by omega
        simp only [luhnSum, hne, if_false, digitSumFrom]
        rw [ih (n / 10) (!dbl) k hfuel hdiv]
        cases dbl with
        | true => simp only [if_true]; rw [luhnDigit_true _ hd]
        | false => simp [luhnDigit]

theorem luhnValid_append (n k : Nat) (hk : n < 10 ^ k) :
    luhnValid (n * 10 + (10 - digitSumFrom k n true % 10) % 10) := by
  have hc : (10 - digitSumFrom k n true % 10) % 10 < 10 := Nat.mod_lt _ (by norm_num)
  have hv : n * 10 + (10 - digitSumFrom k n true % 10) % 10 < 10 ^ (k + 1) := by
    rw [pow_succ]; omega
  unfold luhnValid
  rw [luhnSum_eq_digitSumFrom _ _ false (k + 1) (le_refl _) hv]
  have hmod : (n * 10 + (10 - digitSumFrom k n true % 10) % 10) % 10
      = (10 - digitSumFrom k n true % 10) % 10 := by omega
  have hdiv : (n * 10 + (10 - digitSumFrom k n true % 10) % 10) / 10 = n := by omega
  simp only [digitSumFrom, Bool.false_eq_true, if_false, Bool.not_false, hmod, hdiv]
  omega

/-- C8 (counterexample): `calcChecksum(10, 1)` is 0 and 100 fails the Luhn check: with
`digits = 1` only the last digit of 10 is covered by the check digit. -/
theorem luhn_all_digits_counterexample :
    calcChecksum 10 1 = some 0 ∧ ¬ luhnValid ((10 : Int) * 10 + 0).toNat := by
  decide

/-- C8 (amended): for every non-negative `long` value `num` and every `digits >= 0` such that
`num` has at most `digits` decimal digits (`num < 10^digits`), the number
`num * 10 + calcChecksum(num, digits)` passes the standard Luhn check. -/
theorem calcChecksum_luhn (num digits : Int) (h0 : 0 ≤ num) (hmax : num < 2 ^ 63)
    (_hd : 0 ≤ digits) (hfit : num < 10 ^ digits.toNat) :
    ∃ c : Int, calcChecksum num digits = some c ∧ luhnValid (num * 10 + c).toNat := by
  have hnum : num = ((num.toNat : Nat) : Int) := (Int.toNat_of_nonneg h0).symm
  have hlt : num.toNat < 2 ^ 63 := by omega
  have hfit2 : num.toNat < 10 ^ digits.toNat := by
    have : ((num.toNat : Nat) : Int) < ((10 ^ digits.toNat : Nat) : Int) := by
      rw [← hnum]; exact_mod_cast hfit
    exact_mod_cast this
  refine ⟨(((10 - digitSumFrom digits.toNat num.toNat true % 10) % 10 : Nat) : Int), ?_, ?_⟩
  · conv_lhs => rw [hnum]
    exact calcChecksum_eq num.toNat digits hlt
  · have hv : (num * 10 + (((10 - digitSumFrom digits.toNat num.toNat true % 10) % 10 : Nat) : Int)).toNat
        = num.toNat * 10 + (10 - digitSumFrom digits.toNat num.toNat true % 10) % 10 := by
      omega
    rw [hv]
    exact luhnValid_append _ _ hfit2

/-- C8 (amended, witness): `7552243` is Luhn-valid. -/
theorem calcChecksum_luhn_witness :
    ∃ c : Int, calcChecksum 755224 6 = some c ∧ luhnValid ((755224 : Int) * 10 + c).toNat :=
  calcChecksum_luhn 755224 6 (by decide) (by decide) (by decide) (by decide)

/-! ## The pipeline -/

theorem generateHMACSHA1_shape {Ctx : Type} (P : Provider Ctx) (self : HOTPState Ctx)
    (stack : Fin SB_HMAC_SHA1_160_TAG_LEN → Byte) (sharedKey : QString) (counter : QByteArray) :
    (generateHMACSHA1 P self stack sharedKey counter).1.data.length = 20 ∧
      (generateHMACSHA1 P self stack sharedKey counter).1.cap = 20 := by
  simp [generateHMACSHA1, SB_HMAC_SHA1_160_TAG_LEN]

theorem arrayAt_digitsPower (cd : Nat) (h : cd ≤ 8) :
    arrayAt digitsPower (cd : Int) = some ((10 ^ cd : Nat) : Int) := by
  interval_cases cd <;> rfl

theorem pow_le_of_le_eight (cd : Nat) (h : cd ≤ 8) : 10 ^ cd ≤ 100000000 := by
  interval_cases cd <;> norm_num

/-- The value computed by `generateHOTP` from the truncated number `snum`. -/
theorem generateHOTP_of_truncate {Ctx : Type} (P : Provider Ctx) (self : HOTPState Ctx)
    (stack : Fin SB_HMAC_SHA1_160_TAG_LEN → Byte) (secret : QString) (movingFactor : Int)
    (cd : Nat) (addChecksum : Bool) (truncationOffset : Int) (snum : Nat) (hcd : cd ≤ 8)
    (ht : truncate P.signedChar
      (generateHMACSHA1 P self stack secret (getMovingFactor movingFactor)).1 truncationOffset
        = some (snum : Int)) :
    generateHOTP P self stack secret movingFactor (cd : Int) addChecksum truncationOffset
      = some (((if addChecksum then
            snum % 10 ^ cd * 10 + (10 - digitSumFrom cd (snum % 10 ^ cd) true % 10) % 10
          else snum % 10 ^ cd : Nat) : Int),
        (generateHMACSHA1 P self stack secret (getMovingFactor movingFactor)).2) := by
  have hp := pow_le_of_le_eight cd hcd
  have hpos : 0 < 10 ^ cd := Nat.pos_pow_of_pos cd (by norm_num)
  have hotp : snum % 10 ^ cd < 10 ^ cd := Nat.mod_lt _ hpos
  have hmod : Int.tmod (snum : Int) ((10 ^ cd : Nat) : Int) = ((snum % 10 ^ cd : Nat) : Int) :=
    (Int.ofNat_tmod _ _).symm
  unfold generateHOTP
  simp only [ht, arrayAt_digitsPower cd hcd, hmod, Option.bind_eq_bind, Option.some_bind]
  cases addChecksum with
  | false => simp
  | true =>
    have hc := calcChecksum_eq (snum % 10 ^ cd) (cd : Int) (by omega)
    rw [Int.toNat_ofNat] at hc
    have hclt : (10 - digitSumFrom cd (snum % 10 ^ cd) true % 10) % 10 < 10 :=
      Nat.mod_lt _ (by norm_num)
    have hw1 : intWrap (((snum % 10 ^ cd : Nat) : Int) * 10)
        = ((snum % 10 ^ cd * 10 : Nat) : Int) := by
      have := intWrap_natCast (snum % 10 ^ cd * 10) (by omega)
      rw [← this]; push_cast; rfl
    have hw2 : intWrap (((snum % 10 ^ cd * 10 : Nat) : Int)
        + (((10 - digitSumFrom cd (snum % 10 ^ cd) true % 10) % 10 : Nat) : Int))
        = ((snum % 10 ^ cd * 10 + (10 - digitSumFrom cd (snum % 10 ^ cd) true % 10) % 10 : Nat)
            : Int) := by
      rw [← Int.ofNat_add]; exact intWrap_natCast _ (by omega)
    simp only [if_true, hc, Option.map_some', hw1, hw2, Option.some_bind]

/-- The truncation step of `generateHOTP` always succeeds, with a 31-bit value. -/
theorem generateHOTP_truncate {Ctx : Type} (P : Provider Ctx) (self : HOTPState Ctx)
    (stack : Fin SB_HMAC_SHA1_160_TAG_LEN → Byte) (secret : QString) (movingFactor : Int)
    (truncationOffset : Int) :
    ∃ snum : Nat, snum < 2 ^ 31 ∧ truncate P.signedChar
      (generateHMACSHA1 P self stack secret (getMovingFactor movingFactor)).1 truncationOffset
        = some (snum : Int) := by
  obtain ⟨hl, hc⟩ := generateHMACSHA1_shape P self stack secret (getMovingFactor movingFactor)
  exact truncate_total P.signedChar _ truncationOffset hl hc

/-- C9: for every secret, moving factor, truncation offset and every `codeDigits` in `[0,8]`,
`generateHOTP` with `addChecksum = true` returns a number that passes the standard Luhn
check. -/
theorem generateHOTP_checksum_luhn {Ctx : Type} (P : Provider Ctx) (self : HOTPState Ctx)
    (stack : Fin SB_HMAC_SHA1_160_TAG_LEN → Byte) (secret : QString) (movingFactor : Int)
    (codeDigits : Int) (truncationOffset : Int) (h0 : 0 ≤ codeDigits) (h8 : codeDigits ≤ 8) :
    ∃ (r : Int) (st : HOTPState Ctx),
      generateHOTP P self stack secret movingFactor codeDigits true truncationOffset
        = some (r, st) ∧ 0 ≤ r ∧ luhnValid r.toNat := by
  obtain ⟨snum, _, ht⟩ := generateHOTP_truncate P self stack secret movingFactor truncationOffset
  have hcd : codeDigits = ((codeDigits.toNat : Nat) : Int) := (Int.toNat_of_nonneg h0).symm
  have h := generateHOTP_of_truncate P self stack secret movingFactor codeDigits.toNat true
    truncationOffset snum (by omega) ht
  rw [← hcd] at h
  refine ⟨_, _, h, Int.ofNat_nonneg _, ?_⟩
  simp only [if_true, Int.toNat_ofNat]
  exact luhnValid_append _ _ (Nat.mod_lt _ (Nat.pos_pow_of_pos _ (by norm_num)))

/-- C9 (witness): the RFC 4226 secret and counter 0 with six digits and a check digit. -/
theorem generateHOTP_checksum_luhn_witness :
    ∃ (r : Int) (st : HOTPState (List Byte)),
      generateHOTP rfcProvider ⟨[]⟩ (fun _ => 0) "12345678901234567890" 0 6 true (-1)
        = some (r, st) ∧ 0 ≤ r ∧ luhnValid r.toNat :=
  generateHOTP_checksum_luhn rfcProvider ⟨[]⟩ (fun _ => 0) "12345678901234567890" 0 6 (-1)
    (by decide) (by decide)

/-- C10: for `codeDigits` in `[0,8]` the result of `generateHOTP` is non-negative and below
`10^codeDigits` without checksum, below `10^(codeDigits+1)` with it; with the checksum the result
is the exact integer `otp * 10 + checksum`, which is at most 999999999, so the 32-bit
computation does not overflow. -/
theorem generateHOTP_range {Ctx : Type} (P : Provider Ctx) (self : HOTPState Ctx)
    (stack : Fin SB_HMAC_SHA1_160_TAG_LEN → Byte) (secret : QString) (movingFactor : Int)
    (codeDigits : Int) (addChecksum : Bool) (truncationOffset : Int)
    (h0 : 0 ≤ codeDigits) (h8 : codeDigits ≤ 8) :
    ∃ (r : Int) (st : HOTPState Ctx),
      generateHOTP P self stack secret movingFactor codeDigits addChecksum truncationOffset
        = some (r, st) ∧ 0 ≤ r ∧
      (addChecksum = false → r < 10 ^ codeDigits.toNat) ∧
      (addChecksum = true → r < 10 ^ (codeDigits.toNat + 1) ∧
        ∃ otp c : Int, 0 ≤ otp ∧ otp < 10 ^ codeDigits.toNat ∧
          calcChecksum otp codeDigits = some c ∧ r = otp * 10 + c ∧
          otp * 10 + c ≤ 999999999 ∧ otp * 10 + c < 2 ^ 31) := by
  obtain ⟨snum, _, ht⟩ := generateHOTP_truncate P self stack secret movingFactor truncationOffset
  have hcd : codeDigits = ((codeDigits.toNat : Nat) : Int) := (Int.toNat_of_nonneg h0).symm
  have hle : codeDigits.toNat ≤ 8 := by omega
  have h := generateHOTP_of_truncate P self stack secret movingFactor codeDigits.toNat
    addChecksum truncationOffset snum hle ht
  rw [← hcd] at h
  have hp := pow_le_of_le_eight codeDigits.toNat hle
  have hpos : 0 < 10 ^ codeDigits.toNat := Nat.pos_pow_of_pos _ (by norm_num)
  have hotp : snum % 10 ^ codeDigits.toNat < 10 ^ codeDigits.toNat := Nat.mod_lt _ hpos
  have hclt : (10 - digitSumFrom codeDigits.toNat (snum % 10 ^ codeDigits.toNat) true % 10) % 10
      < 10 := Nat.mod_lt _ (by norm_num)
  refine ⟨_, _, h, Int.ofNat_nonneg _, ?_, ?_⟩
  · intro hf
    subst hf
    simp only [Bool.false_eq_true, if_false]
    exact_mod_cast hotp
  · intro htrue
    subst htrue
    simp only [if_true]
    have hc := calcChecksum_eq (snum % 10 ^ codeDigits.toNat) codeDigits (by omega)
    refine ⟨?_, ((snum % 10 ^ codeDigits.toNat : Nat) : Int), _, Int.ofNat_nonneg _, ?_, hc, ?_,
      ?_, ?_⟩
    · have : snum % 10 ^ codeDigits.toNat * 10
          + (10 - digitSumFrom codeDigits.toNat (snum % 10 ^ codeDigits.toNat) true % 10) % 10
          < 10 ^ (codeDigits.toNat + 1) := by
        rw [pow_succ]; omega
      exact_mod_cast this
    · exact_mod_cast hotp
    · push_cast; rfl
    · have : snum % 10 ^ codeDigits.toNat * 10
          + (10 - digitSumFrom codeDigits.toNat (snum % 10 ^ codeDigits.toNat) true % 10) % 10
          ≤ 999999999 := by omega
      exact_mod_cast this
    · have : snum % 10 ^ codeDigits.toNat * 10
          + (10 - digitSumFrom codeDigits.toNat (snum % 10 ^ codeDigits.toNat) true % 10) % 10
          < 2 ^ 31 := by omega
      exact_mod_cast this

/-- C10 (witness): eight digits and a check digit for the RFC 4226 secret and counter 1. -/
theorem generateHOTP_range_witness :
    ∃ (r : Int) (st : HOTPState (List Byte)),
      generateHOTP rfcProvider ⟨[]⟩ (fun _ => 0) "12345678901234567890" 1 8 true 16
        = some (r, st) ∧ 0 ≤ r ∧
      (true = false → r < 10 ^ (8 : Int).toNat) ∧
      (true = true → r < 10 ^ ((8 : Int).toNat + 1) ∧
        ∃ otp c : Int, 0 ≤ otp ∧ otp < 10 ^ (8 : Int).toNat ∧
          calcChecksum otp 8 = some c ∧ r = otp * 10 + c ∧
          otp * 10 + c ≤ 999999999 ∧ otp * 10 + c < 2 ^ 31) :=
  generateHOTP_range rfcProvider ⟨[]⟩ (fun _ => 0) "12345678901234567890" 1 8 true 16
    (by decide) (by decide)

/-! ## Known answers of RFC 4226 -/

theorem generateHMACSHA1_of_yields {Ctx : Type} (P : Provider Ctx) (self : HOTPState Ctx)
    (stack : Fin SB_HMAC_SHA1_160_TAG_LEN → Byte) (secret : QString) (counter : QByteArray)
    (key tag : List Byte) (hutf : P.toUtf8 secret = key)
    (hy : ProviderYields P key counter.data tag) :
    (generateHMACSHA1 P self stack secret counter).1 = ⟨tag, 20⟩ := by
  obtain ⟨ctx, hb, he⟩ := hy
  unfold generateHMACSHA1
  simp only [hutf, hb, Option.getD_some]
  cases hres : (P.hmacEnd (P.hmacHash ctx counter.data).2).2.2 with
  | none => rw [hres] at he; simp at he
  | some f =>
    rw [hres] at he
    simp only [Option.map_some', Option.some.injEq] at he
    simp only [Option.getD_some, he, SB_HMAC_SHA1_160_TAG_LEN]

theorem generateHOTP_known {Ctx : Type} (P : Provider Ctx) (self : HOTPState Ctx)
    (stack : Fin SB_HMAC_SHA1_160_TAG_LEN → Byte) (secret : QString) (movingFactor : Int)
    (truncationOffset : Int) (key tag : List Byte) (hlen : tag.length = 20)
    (hoff : truncationOffset < 0 ∨ 15 < truncationOffset)
    (hutf : P.toUtf8 secret = key)
    (hy : ProviderYields P key (getMovingFactor movingFactor).data tag) :
    (generateHOTP P self stack secret movingFactor 6 false truncationOffset).map Prod.fst
      = some (((be32 ⟨tag, 20⟩ (byteAt ⟨tag, 20⟩ 19 % 16) % 2 ^ 31 % 10 ^ 6 : Nat) : Int)) := by
  have hd := generateHMACSHA1_of_yields P self stack secret (getMovingFactor movingFactor) key tag
    hutf hy
  have hb := byteAt_lt ⟨tag, 20⟩ 19
  have ht := truncate_at P.signedChar ⟨tag, 20⟩ truncationOffset (byteAt ⟨tag, 20⟩ 19 % 16)
    hlen rfl (by omega) (by rw [if_neg (by omega)])
  have ht2 : truncate P.signedChar
      (generateHMACSHA1 P self stack secret (getMovingFactor movingFactor)).1 truncationOffset
      = some ((be32 ⟨tag, 20⟩ (byteAt ⟨tag, 20⟩ 19 % 16) % 2 ^ 31 : Nat) : Int) := by
    rw [hd]; exact ht
  have h := generateHOTP_of_truncate P self stack secret movingFactor 6 false truncationOffset _
    (by norm_num) ht2
  have h6 : ((6 : Nat) : Int) = 6 := rfl
  rw [h6] at h
  rw [h]
  simp

/-- C1: RFC 4226 Appendix D.  With the secret ASCII `12345678901234567890`, six digits, no
checksum and a truncation offset outside `[0,15]`, `generateHOTP` returns 755224 for moving
factor 0 and 287082 for moving factor 1, provided the HMAC provider computes the HMAC-SHA1
digests `cc93cf18...e4b0` and `75a48a19...33ab` for the big-endian counters 0 and 1. -/
theorem rfc4226_known_answers {Ctx : Type} (P : Provider Ctx) (self : HOTPState Ctx)
    (stack : Fin SB_HMAC_SHA1_160_TAG_LEN → Byte) (truncationOffset : Int)
    (hoff : truncationOffset < 0 ∨ 15 < truncationOffset)
    (hutf : P.toUtf8 "12345678901234567890" = rfcSecret)
    (hd0 : ProviderYields P rfcSecret [0, 0, 0, 0, 0, 0, 0, 0] rfcDigest0)
    (hd1 : ProviderYields P rfcSecret [0, 0, 0, 0, 0, 0, 0, 1] rfcDigest1) :
    (generateHOTP P self stack "12345678901234567890" 0 6 false truncationOffset).map Prod.fst
      = some 755224 ∧
    (generateHOTP P self stack "12345678901234567890" 1 6 false truncationOffset).map Prod.fst
      = some 287082 := by
  have m0 : (getMovingFactor 0).data = [0, 0, 0, 0, 0, 0, 0, 0] := by decide
  have m1 : (getMovingFactor 1).data = [0, 0, 0, 0, 0, 0, 0, 1] := by decide
  constructor
  · rw [generateHOTP_known P self stack _ 0 truncationOffset rfcSecret rfcDigest0 (by decide)
      hoff hutf (by rw [m0]; exact hd0)]
    decide
  · rw [generateHOTP_known P self stack _ 1 truncationOffset rfcSecret rfcDigest1 (by decide)
      hoff hutf (by rw [m1]; exact hd1)]
    decide

/-- C1 (witness): the test double `rfcProvider` with truncation offset -1. -/
theorem rfc4226_known_answers_witness :
    (generateHOTP rfcProvider ⟨[]⟩ (fun _ => 0) "12345678901234567890" 0 6 false (-1)).map
        Prod.fst = some 755224 ∧
    (generateHOTP rfcProvider ⟨[]⟩ (fun _ => 0) "12345678901234567890" 1 6 false (-1)).map
        Prod.fst = some 287082 :=
  rfc4226_known_answers rfcProvider ⟨[]⟩ (fun _ => 0) (-1) (by decide) (by decide)
    ⟨[], rfl, by decide⟩ ⟨[], rfl, by decide⟩

/-! ## Moving factor -/

theorem longShr_eight (x : Int) : longShr x 8 = x / 256 := by
  unfold longShr
  rw [Int.shiftRight_eq_div_pow]; rfl

theorem toChar_longAnd_val (x : Int) : (toChar (longAnd x 0xff)).val = (x % 256).toNat := by
  have h255 : toBits 64 0xff = 2 ^ 8 - 1 := by decide
  have hlt : toBits 64 x % 2 ^ 8 < 2 ^ (64 - 1) := by
    have := Nat.mod_lt (toBits 64 x) (by norm_num : 0 < 2 ^ 8)
    omega
  unfold longAnd
  rw [h255, Nat.and_pow_two_sub_one_eq_mod, ofBits_of_lt 64 _ (by norm_num) hlt]
  unfold toChar toBits
  simp only [Fin.ofNat, Fin.val_mk]
  omega

theorem getMovingFactor_data (x : Int) :
    (getMovingFactor x).data =
      [toChar (longAnd (x / 256 / 256 / 256 / 256 / 256 / 256 / 256) 0xff),
       toChar (longAnd (x / 256 / 256 / 256 / 256 / 256 / 256) 0xff),
       toChar (longAnd (x / 256 / 256 / 256 / 256 / 256) 0xff),
       toChar (longAnd (x / 256 / 256 / 256 / 256) 0xff),
       toChar (longAnd (x / 256 / 256 / 256) 0xff),
       toChar (longAnd (x / 256 / 256) 0xff),
       toChar (longAnd (x / 256) 0xff),
       toChar (longAnd x 0xff)] := by
  simp only [getMovingFactor, getMovingFactorLoop, longShr_eight]
  rfl

theorem toLong_cases (c : Nat) (hc : c < 2 ^ 64) :
    (toLong c = (c : Int) ∧ c < 2 ^ 63) ∨ (toLong c = (c : Int) - 2 ^ 64 ∧ 2 ^ 63 ≤ c) := by
  unfold toLong ofBits
  rw [Nat.mod_eq_of_lt hc]
  by_cases h : c < 2 ^ (64 - 1)
  · left; rw [if_pos h]; exact ⟨rfl, h⟩
  · right; rw [if_neg h]; exact ⟨rfl, by omega⟩

theorem getMovingFactor_values (c : Nat) (hc : c < 2 ^ 64) :
    (getMovingFactor (toLong c)).data.map Fin.val =
      [c / 2 ^ 56 % 256, c / 2 ^ 48 % 256, c / 2 ^ 40 % 256, c / 2 ^ 32 % 256,
       c / 2 ^ 24 % 256, c / 2 ^ 16 % 256, c / 2 ^ 8 % 256, c % 256] := by
  rw [getMovingFactor_data]
  simp only [List.map_cons, List.map_nil, toChar_longAnd_val, List.cons.injEq, and_true]
  rcases toLong_cases c hc with ⟨hx, hlt⟩ | ⟨hx, hge⟩
  · rw [hx]
    refine ⟨?_, ?_, ?_, ?_, ?_, ?_, ?_, ?_⟩ <;> omega
  · rw [hx]
    refine ⟨?_, ?_, ?_, ?_, ?_, ?_, ?_, ?_⟩ <;> omega

theorem byteAt_eq_map (b : QByteArray) (i : Nat) : byteAt b i = (b.data.map Fin.val).getD i 0 := by
  unfold byteAt
  simp only [List.getD_eq_getElem?_getD, List.getElem?_map]
  cases b.data[i]? <;> rfl

/-- C5: for every counter `c` in `[0, 2^64-1]` (passed as a `long`), `getMovingFactor` returns
exactly 8 bytes, the big-endian representation of `c`: byte `i` is
`(c >> (8*(7-i))) & 0xFF`. -/
theorem getMovingFactor_bigEndian (c : Nat) (hc : c < 2 ^ 64) :
    (getMovingFactor (toLong c)).data.length = 8 ∧
    ∀ i : Nat, i ≤ 7 →
      byteAt (getMovingFactor (toLong c)) i = (c >>> (8 * (7 - i))) &&& 0xFF := by
  have hv := getMovingFactor_values c hc
  constructor
  · have := congrArg List.length hv
    simpa using this
  · intro i hi
    rw [byteAt_eq_map, hv, Nat.shiftRight_eq_div_pow]
    have hm : ∀ n : Nat, n &&& 0xFF = n % 256 := fun n => Nat.and_pow_two_sub_one_eq_mod n 8
    rw [hm]
    interval_cases i <;> simp

/-- C5 (witness): the counter `0x0102030405060708`. -/
theorem getMovingFactor_bigEndian_witness :
    (getMovingFactor (toLong 0x0102030405060708)).data.length = 8 ∧
    ∀ i : Nat, i ≤ 7 →
      byteAt (getMovingFactor (toLong 0x0102030405060708)) i
        = (0x0102030405060708 >>> (8 * (7 - i))) &&& 0xFF :=
  getMovingFactor_bigEndian 0x0102030405060708 (by decide)

theorem decode_getMovingFactor (c : Nat) (hc : c < 2 ^ 64) :
    decode (getMovingFactor (toLong c)) = c := by
  have hv := getMovingFactor_values c hc
  unfold decode
  simp only [byteAt_eq_map, hv]
  simp [List.range_succ]
  omega

/-- C6: decoding the eight bytes of `getMovingFactor(c)` as an unsigned big-endian integer gives
`c` back, for every `c` in `[0, 2^64-1]`; hence `getMovingFactor` is injective on that range. -/
theorem getMovingFactor_roundtrip (c1 c2 : Nat) (h1 : c1 < 2 ^ 64) (h2 : c2 < 2 ^ 64) :
    decode (getMovingFactor (toLong c1)) = c1 ∧
    (getMovingFactor (toLong c1) = getMovingFactor (toLong c2) → c1 = c2) := by
  refine ⟨decode_getMovingFactor c1 h1, ?_⟩
  intro heq
  rw [← decode_getMovingFactor c1 h1, ← decode_getMovingFactor c2 h2, heq]

/-- C6 (witness): the largest counter `2^64 - 1` against the counter 0. -/
theorem getMovingFactor_roundtrip_witness :
    decode (getMovingFactor (toLong 18446744073709551615)) = 18446744073709551615 ∧
    (getMovingFactor (toLong 18446744073709551615) = getMovingFactor (toLong 0) →
      18446744073709551615 = 0) :=
  getMovingFactor_roundtrip 18446744073709551615 0 (by decide) (by decide)

/-! ## Composition of the pipeline -/

theorem generateHOTP_total {Ctx : Type} (P : Provider Ctx) (self : HOTPState Ctx)
    (stack : Fin SB_HMAC_SHA1_160_TAG_LEN → Byte) (secret : QString) (movingFactor : Int)
    (cd : Nat) (addChecksum : Bool) (truncationOffset : Int) (hcd : cd ≤ 8) :
    ∃ snum : Nat, snum < 2 ^ 31 ∧
      truncate P.signedChar
        (generateHMACSHA1 P self stack secret (getMovingFactor movingFactor)).1 truncationOffset
          = some (snum : Int) ∧
      calcChecksum ((snum % 10 ^ cd : Nat) : Int) (cd : Int)
        = some (((10 - digitSumFrom cd (snum % 10 ^ cd) true % 10) % 10 : Nat) : Int) ∧
      generateHOTP P self stack secret movingFactor (cd : Int) addChecksum truncationOffset
        = some (((if addChecksum then
              snum % 10 ^ cd * 10 + (10 - digitSumFrom cd (snum % 10 ^ cd) true % 10) % 10
            else snum % 10 ^ cd : Nat) : Int),
          (generateHMACSHA1 P self stack secret (getMovingFactor movingFactor)).2) := by
  obtain ⟨snum, hlt, ht⟩ :=
    generateHOTP_truncate P self stack secret movingFactor truncationOffset
  have hp := pow_le_of_le_eight cd hcd
  have hotp : snum % 10 ^ cd < 10 ^ cd := Nat.mod_lt _ (Nat.pos_pow_of_pos cd (by norm_num))
  have hc := calcChecksum_eq (snum % 10 ^ cd) (cd : Int) (by omega)
  rw [Int.toNat_ofNat] at hc
  exact ⟨snum, hlt, ht, hc,
    generateHOTP_of_truncate P self stack secret movingFactor cd addChecksum truncationOffset
      snum hcd ht⟩

/-- C11: pipeline composition.  For `codeDigits` in `[0,8]`, with `tag` the digest the provider
computes for the UTF-8 bytes of the secret and the encoded moving factor, and
`otp = truncate(tag, off) mod 10^codeDigits`, `generateHOTP` returns `otp` without checksum and
`otp * 10 + calcChecksum(otp, codeDigits)` with it; the checksummed result divided by 10 is
`otp` and its last digit is the check digit. -/
theorem generateHOTP_composition {Ctx : Type} (P : Provider Ctx) (self : HOTPState Ctx)
    (stack : Fin SB_HMAC_SHA1_160_TAG_LEN → Byte) (secret : QString) (movingFactor : Int)
    (codeDigits : Int) (truncationOffset : Int) (tag : List Byte)
    (h0 : 0 ≤ codeDigits) (h8 : codeDigits ≤ 8)
    (hy : ProviderYields P (P.toUtf8 secret) (getMovingFactor movingFactor).data tag) :
    ∃ snum otp c : Int,
      truncate P.signedChar ⟨tag, 20⟩ truncationOffset = some snum ∧
      otp = Int.tmod snum (10 ^ codeDigits.toNat) ∧
      calcChecksum otp codeDigits = some c ∧
      (generateHOTP P self stack secret movingFactor codeDigits false truncationOffset).map
        Prod.fst = some otp ∧
      (generateHOTP P self stack secret movingFactor codeDigits true truncationOffset).map
        Prod.fst = some (otp * 10 + c) ∧
      Int.tdiv (otp * 10 + c) 10 = otp ∧ Int.tmod (otp * 10 + c) 10 = c := by
  have hd := generateHMACSHA1_of_yields P self stack secret (getMovingFactor movingFactor)
    (P.toUtf8 secret) tag rfl hy
  have hcd : codeDigits = ((codeDigits.toNat : Nat) : Int) := (Int.toNat_of_nonneg h0).symm
  have hle : codeDigits.toNat ≤ 8 := by omega
  obtain ⟨snum, _, ht, hc, hf⟩ := generateHOTP_total P self stack secret movingFactor
    codeDigits.toNat false truncationOffset hle
  obtain ⟨snum2, _, ht2, _, hg⟩ := generateHOTP_total P self stack secret movingFactor
    codeDigits.toNat true truncationOffset hle
  have hs : snum2 = snum := by
    rw [ht] at ht2
    exact_mod_cast (Option.some.inj ht2).symm
  subst hs
  rw [← hcd] at hc hf hg
  rw [hd] at ht
  have hclt : (10 - digitSumFrom codeDigits.toNat (snum2 % 10 ^ codeDigits.toNat) true % 10) % 10
      < 10 := Nat.mod_lt _ (by norm_num)
  refine ⟨(snum2 : Int), ((snum2 % 10 ^ codeDigits.toNat : Nat) : Int),
    (((10 - digitSumFrom codeDigits.toNat (snum2 % 10 ^ codeDigits.toNat) true % 10) % 10 : Nat)
      : Int), ht, ?_, hc, ?_, ?_, ?_, ?_⟩
  · rw [Int.ofNat_tmod]; push_cast; rfl
  · rw [hf]; simp
  · rw [hg]; simp
  · rw [Int.tdiv_eq_ediv (by omega) (by norm_num)]; omega
  · rw [Int.tmod_eq_emod (by omega) (by norm_num)]; omega

/-- C11 (witness): the RFC 4226 secret, counter 0 and six digits on the test double. -/
theorem generateHOTP_composition_witness :
    ∃ snum otp c : Int,
      truncate rfcProvider.signedChar ⟨rfcDigest0, 20⟩ (-1) = some snum ∧
      otp = Int.tmod snum (10 ^ (6 : Int).toNat) ∧
      calcChecksum otp 6 = some c ∧
      (generateHOTP rfcProvider ⟨[]⟩ (fun _ => 0) "12345678901234567890" 0 6 false (-1)).map
        Prod.fst = some otp ∧
      (generateHOTP rfcProvider ⟨[]⟩ (fun _ => 0) "12345678901234567890" 0 6 true (-1)).map
        Prod.fst = some (otp * 10 + c) ∧
      Int.tdiv (otp * 10 + c) 10 = otp ∧ Int.tmod (otp * 10 + c) 10 = c :=
  generateHOTP_composition rfcProvider ⟨[]⟩ (fun _ => 0) "12345678901234567890" 0 6 (-1)
    rfcDigest0 (by decide) (by decide) ⟨[], rfl, by decide⟩

/-- C12: with `codeDigits = 0` the reduced value is 0 and `generateHOTP` returns 0 both without
and with the checksum; `calcChecksum(0, 0)` runs no loop iteration and is 0. -/
theorem generateHOTP_zero_digits {Ctx : Type} (P : Provider Ctx) (self : HOTPState Ctx)
    (stack : Fin SB_HMAC_SHA1_160_TAG_LEN → Byte) (secret : QString) (movingFactor : Int)
    (truncationOffset : Int) :
    (generateHOTP P self stack secret movingFactor 0 false truncationOffset).map Prod.fst
      = some 0 ∧
    (generateHOTP P self stack secret movingFactor 0 true truncationOffset).map Prod.fst
      = some 0 ∧
    (∀ snum : Int, Int.tmod snum 1 = 0) ∧
    calcChecksumLoop (0 : Int).toNat 0 true 0 = some 0 ∧ calcChecksum 0 0 = some 0 := by
  obtain ⟨s1, _, _, _, hf⟩ := generateHOTP_total P self stack secret movingFactor 0 false
    truncationOffset (by norm_num)
  obtain ⟨s2, _, _, _, hg⟩ := generateHOTP_total P self stack secret movingFactor 0 true
    truncationOffset (by norm_num)
  have h0 : ((0 : Nat) : Int) = 0 := rfl
  rw [h0] at hf hg
  refine ⟨?_, ?_, ?_, rfl, rfl⟩
  · rw [hf]; simp [Nat.mod_one]
  · rw [hg]; simp [Nat.mod_one, digitSumFrom]
  · intro snum; exact Int.tmod_one snum

/-- C20: shorter codes are suffixes of longer ones.  For `d` in `[0,7]` and the same provider,
object state and inputs, `generateHOTP` with `codeDigits = d` and no checksum returns the result
for `codeDigits = d + 1` reduced modulo `10^d`. -/
theorem generateHOTP_suffix {Ctx : Type} (P : Provider Ctx) (self : HOTPState Ctx)
    (stack : Fin SB_HMAC_SHA1_160_TAG_LEN → Byte) (secret : QString) (movingFactor : Int)
    (d : Nat) (truncationOffset : Int) (hd : d ≤ 7) :
    ∃ short long : Int,
      (generateHOTP P self stack secret movingFactor (d : Int) false truncationOffset).map
        Prod.fst = some short ∧
      (generateHOTP P self stack secret movingFactor ((d : Int) + 1) false truncationOffset).map
        Prod.fst = some long ∧
      short = Int.tmod long (10 ^ d) := by
  obtain ⟨s1, _, ht1, _, hf⟩ := generateHOTP_total P self stack secret movingFactor d false
    truncationOffset (by omega)
  obtain ⟨s2, _, ht2, _, hg⟩ := generateHOTP_total P self stack secret movingFactor (d + 1) false
    truncationOffset (by omega)
  have hs : s2 = s1 := by
    rw [ht1] at ht2
    exact_mod_cast (Option.some.inj ht2).symm
  subst hs
  have hcast : (((d + 1 : Nat) : Int)) = (d : Int) + 1 := by push_cast; rfl
  rw [hcast] at hg
  refine ⟨_, _, by rw [hf]; rfl, by rw [hg]; rfl, ?_⟩
  simp only [Bool.false_eq_true, if_false]
  have hdvd : 10 ^ d ∣ 10 ^ (d + 1) := pow_dvd_pow 10 (Nat.le_succ d)
  have : s2 % 10 ^ d = s2 % 10 ^ (d + 1) % 10 ^ d := (Nat.mod_mod_of_dvd s2 hdvd).symm
  rw [this, Int.ofNat_tmod]
  push_cast
  rfl

/-- C20 (witness): six digits against seven for the RFC 4226 secret and counter 1. -/
theorem generateHOTP_suffix_witness :
    ∃ short long : Int,
      (generateHOTP rfcProvider ⟨[]⟩ (fun _ => 0) "12345678901234567890" 1 ((6 : Nat) : Int)
        false 16).map Prod.fst = some short ∧
      (generateHOTP rfcProvider ⟨[]⟩ (fun _ => 0) "12345678901234567890" 1 (((6 : Nat) : Int) + 1)
        false 16).map Prod.fst = some long ∧
      short = Int.tmod long (10 ^ 6) :=
  generateHOTP_suffix rfcProvider ⟨[]⟩ (fun _ => 0) "12345678901234567890" 1 6 16 (by decide)

/-! ## Argument checks and provider failures -/

theorem generateHOTPEvents_prefix {Ctx : Type} (P : Provider Ctx) (self : HOTPState Ctx)
    (stack : Fin SB_HMAC_SHA1_160_TAG_LEN → Byte) (secret : QString) (movingFactor : Int)
    (codeDigits : Int) (addChecksum : Bool) (truncationOffset : Int) :
    ∃ rest : List Event,
      generateHOTPEvents P self stack secret movingFactor codeDigits addChecksum truncationOffset
        = Event.hmacBegin (P.toUtf8 secret) :: Event.hmacHash (getMovingFactor movingFactor).data
            :: Event.hmacEnd :: Event.readDigitsPower codeDigits :: rest ∧
      rest = (match generateHOTP P self stack secret movingFactor codeDigits addChecksum
          truncationOffset with
        | none => []
        | some r => [Event.returned r.1]) := by
  obtain ⟨snum, _, ht⟩ :=
    generateHOTP_truncate P self stack secret movingFactor truncationOffset
  unfold generateHOTPEvents generateHOTP generateHMACSHA1Events
  simp only [ht, Option.bind_eq_bind, Option.some_bind, List.cons_append, List.nil_append,
    List.cons.injEq, true_and, exists_eq_left']
  cases arrayAt digitsPower codeDigits with
  | none => rfl
  | some power =>
    cases addChecksum with
    | false => simp
    | true =>
      cases hc : calcChecksum (Int.tmod (snum : Int) power) codeDigits <;> simp [hc]

theorem arrayAt_digitsPower_none (codeDigits : Int) (hout : codeDigits < 0 ∨ 8 < codeDigits) :
    arrayAt digitsPower codeDigits = none := by
  unfold arrayAt
  by_cases h : 0 ≤ codeDigits
  · rw [if_pos h]
    apply List.getElem?_eq_none
    have : digitsPower.length = 9 := rfl
    omega
  · rw [if_neg h]

/-- C13: `generateHOTP` does not check `codeDigits`.  For every `codeDigits` outside `[0,8]` and
every provider and input, the digest has been obtained from the provider and truncated to a
number `snum` when `digitsPower[codeDigits]` is read; that index lies outside the nine entries
of the table; and the value the function goes on to return is `snum` reduced by the entry read
there (with the check digit appended on request).  No test of `codeDigits` and no error report
stands before that read, whose outcome the code leaves undefined. -/
theorem generateHOTP_codeDigits_out_of_bounds {Ctx : Type} (P : Provider Ctx)
    (self : HOTPState Ctx) (stack : Fin SB_HMAC_SHA1_160_TAG_LEN → Byte) (secret : QString)
    (movingFactor : Int) (codeDigits : Int) (addChecksum : Bool) (truncationOffset : Int)
    (hout : codeDigits < 0 ∨ 8 < codeDigits) :
    ∃ snum : Int,
      truncate P.signedChar
        (generateHMACSHA1 P self stack secret (getMovingFactor movingFactor)).1 truncationOffset
          = some snum ∧
      arrayAt digitsPower codeDigits = none ∧
      generateHOTP P self stack secret movingFactor codeDigits addChecksum truncationOffset
        = (arrayAt digitsPower codeDigits).bind fun power =>
            (if addChecksum then
                (calcChecksum (Int.tmod snum power) codeDigits).map
                  (fun c => intWrap (intWrap (Int.tmod snum power * 10) + c))
              else some (Int.tmod snum power)).bind fun hotp =>
              some (hotp,
                (generateHMACSHA1 P self stack secret (getMovingFactor movingFactor)).2) := by
  obtain ⟨snum, _, ht⟩ :=
    generateHOTP_truncate P self stack secret movingFactor truncationOffset
  refine ⟨(snum : Int), ht, arrayAt_digitsPower_none codeDigits hout, ?_⟩
  unfold generateHOTP
  simp only [ht, Option.bind_eq_bind, Option.some_bind]
  cases arrayAt digitsPower codeDigits with
  | none => rfl
  | some power =>
    simp only [Option.some_bind]
    cases addChecksum <;> rfl

/-- C13 (witness): the RFC 4226 secret and counter 0 on the test double with `codeDigits = 9`. -/
theorem generateHOTP_codeDigits_out_of_bounds_witness :
    ∃ snum : Int,
      truncate rfcProvider.signedChar
        (generateHMACSHA1 rfcProvider ⟨[]⟩ (fun _ => 0) "12345678901234567890"
          (getMovingFactor 0)).1 (-1) = some snum ∧
      arrayAt digitsPower 9 = none ∧
      generateHOTP rfcProvider ⟨[]⟩ (fun _ => 0) "12345678901234567890" 0 9 false (-1)
        = (arrayAt digitsPower 9).bind fun power =>
            (if false then
                (calcChecksum (Int.tmod snum power) 9).map
                  (fun c => intWrap (intWrap (Int.tmod snum power * 10) + c))
              else some (Int.tmod snum power)).bind fun hotp =>
              some (hotp,
                (generateHMACSHA1 rfcProvider ⟨[]⟩ (fun _ => 0) "12345678901234567890"
                  (getMovingFactor 0)).2) :=
  generateHOTP_codeDigits_out_of_bounds rfcProvider ⟨[]⟩ (fun _ => 0) "12345678901234567890" 0 9
    false (-1) (by decide)

/-- C14: a provider failure does not stop the pipeline.  When the three HMAC calls report the
status `rc` (any value) and write neither context nor tag, all three calls are still made,
`generateHMACSHA1` returns the previous content of the stack buffer, and `generateHOTP` returns
an OTP computed from it: 755224 when the buffer happens to hold the bytes `cc93cf18...e4b0`,
0 when it holds zeros. -/
theorem failed_hmac_still_returns (rc : Int) :
    (generateHMACSHA1 (failingProvider rc) ⟨()⟩ (fun i => rfcDigest0.getD i 0)
      "12345678901234567890" (getMovingFactor 0)).1.data = rfcDigest0 ∧
    generateHOTPEvents (failingProvider rc) ⟨()⟩ (fun i => rfcDigest0.getD i 0)
      "12345678901234567890" 0 6 false (-1)
      = [Event.hmacBegin rfcSecret, Event.hmacHash [0, 0, 0, 0, 0, 0, 0, 0], Event.hmacEnd,
          Event.readDigitsPower 6, Event.returned 755224] ∧
    (generateHOTP (failingProvider rc) ⟨()⟩ (fun i => rfcDigest0.getD i 0)
      "12345678901234567890" 0 6 false (-1)).map Prod.fst = some 755224 ∧
    (generateHOTP (failingProvider rc) ⟨()⟩ (fun _ => 0)
      "12345678901234567890" 0 6 false (-1)).map Prod.fst = some 0 := by
  have hev : generateHOTPEvents (failingProvider rc) ⟨()⟩ (fun i => rfcDigest0.getD i 0)
      "12345678901234567890" 0 6 false (-1)
      = generateHOTPEvents (failingProvider 0) ⟨()⟩ (fun i => rfcDigest0.getD i 0)
      "12345678901234567890" 0 6 false (-1) := by
    simp only [generateHOTPEvents, generateHMACSHA1Events, generateHMACSHA1, failingProvider]
  have hval : ∀ stack : Fin SB_HMAC_SHA1_160_TAG_LEN → Byte,
      generateHOTP (failingProvider rc) ⟨()⟩ stack "12345678901234567890" 0 6 false (-1)
      = generateHOTP (failingProvider 0) ⟨()⟩ stack "12345678901234567890" 0 6 false (-1) :=
    fun _ => rfl
  refine ⟨rfl, ?_, ?_, ?_⟩
  · rw [hev]; decide
  · rw [hval]; decide
  · rw [hval]; decide

/-! ## Determinism -/

theorem generateHMACSHA1_conformant {Ctx : Type} (P : Provider Ctx) (hP : Conformant P)
    (self1 self2 : HOTPState Ctx) (stack1 stack2 : Fin SB_HMAC_SHA1_160_TAG_LEN → Byte)
    (sharedKey : QString) (counter : QByteArray) :
    generateHMACSHA1 P self1 stack1 sharedKey counter
      = generateHMACSHA1 P self2 stack2 sharedKey counter := by
  obtain ⟨ctx, hb⟩ := hP.1 (P.toUtf8 sharedKey)
  obtain ⟨tag, he⟩ := hP.2 (P.hmacHash ctx counter.data).2
  unfold generateHMACSHA1
  simp only [hb, he, Option.getD_some]

/-- C15: determinism.  For a conformant provider, `generateHOTP` called with the same secret,
moving factor, code digits, checksum flag and truncation offset gives the same result (value and
final context) whatever the object state `hmacContext` and the stack content are on entry, hence
whatever calls were made on the object before. -/
theorem generateHOTP_deterministic {Ctx : Type} (P : Provider Ctx) (hP : Conformant P)
    (self1 self2 : HOTPState Ctx) (stack1 stack2 : Fin SB_HMAC_SHA1_160_TAG_LEN → Byte)
    (secret : QString) (movingFactor : Int) (codeDigits : Int) (addChecksum : Bool)
    (truncationOffset : Int) :
    generateHOTP P self1 stack1 secret movingFactor codeDigits addChecksum truncationOffset
      = generateHOTP P self2 stack2 secret movingFactor codeDigits addChecksum
          truncationOffset := by
  simp only [generateHOTP, generateHMACSHA1_conformant P hP self1 self2 stack1 stack2]

/-- C15 (witness): the test double is conformant; a fresh object with a zeroed stack against an
object left with another context and a stack of `0xff` bytes. -/
theorem generateHOTP_deterministic_witness :
    generateHOTP rfcProvider ⟨[]⟩ (fun _ => 0) "12345678901234567890" 1 6 true (-1)
      = generateHOTP rfcProvider ⟨[1, 2, 3]⟩ (fun _ => 0xff) "12345678901234567890" 1 6 true
          (-1) :=
  generateHOTP_deterministic rfcProvider ⟨fun _ => ⟨[], rfl⟩, fun _ => ⟨_, rfl⟩⟩ ⟨[]⟩ ⟨[1, 2, 3]⟩
    (fun _ => 0) (fun _ => 0xff) "12345678901234567890" 1 6 true (-1)

/-! ## The substitution table -/

/-- C17: the table `doubleDigits` is the double-and-fold transform, `2d` when `2d <= 9` and
`2d - 9` otherwise, for every digit `d`; it is a permutation of `0..9`; it equals `(2*d) mod 9`
for `d` in `[0,8]` and differs from that closed form exactly at `d = 9`, where the table holds 9
and the closed form gives 0. -/
theorem doubleDigits_table :
    (∀ d : Fin 10, arrayAt doubleDigits (d.val : Int)
      = some (if 2 * d.val ≤ 9 then ((2 * d.val : Nat) : Int) else ((2 * d.val - 9 : Nat) : Int))) ∧
    List.Perm doubleDigits [0, 1, 2, 3, 4, 5, 6, 7, 8, 9] ∧
    (∀ d : Fin 9, arrayAt doubleDigits (d.val : Int) = some ((2 * d.val % 9 : Nat) : Int)) ∧
    (∀ d : Fin 10,
      arrayAt doubleDigits (d.val : Int) = some ((2 * d.val % 9 : Nat) : Int) ↔ d.val ≠ 9) ∧
    arrayAt doubleDigits 9 = some 9 ∧ 2 * 9 % 9 = 0 := by
  refine ⟨by decide, by decide, by decide, by decide, by decide, by decide⟩

/-! ## Index safety of truncation -/

theorem truncate_eq_reads (sc : Bool) (d : QByteArray) (off : Int) :
    truncate sc d off = (truncateOffset sc d off).bind fun offset =>
      (d.charAt sc offset).bind fun b0 =>
      (d.charAt sc (offset + 1)).bind fun b1 =>
      (d.charAt sc (offset + 2)).bind fun b2 =>
      (d.charAt sc (offset + 3)).bind fun b3 =>
        some (intOr (intOr (intOr (intShl (intAnd b0 0x7f) 24) (intShl (intAnd b1 0xff) 16))
          (intShl (intAnd b2 0xff) 8)) (intAnd b3 0xff)) := by
  simp only [truncate, truncateOffset, Option.bind_eq_bind]
  cases h : d.charAt sc (d.capacity - 1) <;> simp

/-- C18: index safety.  For a 20-byte digest and every truncation offset, the offset `truncate`
settles on lies in `[0,15]`; the read of byte 19 and the four reads at `offset .. offset+3` are
inside the array, and `truncate`, which consists of exactly these reads, returns a value. -/
theorem truncate_index_safe (signedChar : Bool) (digest : QByteArray) (truncationOffset : Int)
    (hlen : digest.data.length = 20) (hcap : digest.cap = 20) :
    ∃ offset : Int, truncateOffset signedChar digest truncationOffset = some offset ∧
      0 ≤ offset ∧ offset ≤ 15 ∧ offset + 3 ≤ 19 ∧
      (digest.charAt signedChar (digest.capacity - 1)).isSome = true ∧
      digest.capacity - 1 = 19 ∧
      (digest.charAt signedChar offset).isSome = true ∧
      (digest.charAt signedChar (offset + 1)).isSome = true ∧
      (digest.charAt signedChar (offset + 2)).isSome = true ∧
      (digest.charAt signedChar (offset + 3)).isSome = true ∧
      (truncate signedChar digest truncationOffset).isSome = true ∧
      truncate signedChar digest truncationOffset
        = (digest.charAt signedChar offset).bind fun b0 =>
          (digest.charAt signedChar (offset + 1)).bind fun b1 =>
          (digest.charAt signedChar (offset + 2)).bind fun b2 =>
          (digest.charAt signedChar (offset + 3)).bind fun b3 =>
            some (intOr (intOr (intOr (intShl (intAnd b0 0x7f) 24)
              (intShl (intAnd b1 0xff) 16)) (intShl (intAnd b2 0xff) 8)) (intAnd b3 0xff)) := by
  have hc19 : digest.capacity - 1 = ((19 : Nat) : Int) := by simp [QByteArray.capacity, hcap]
  have h19 := charAt_natCast signedChar digest 19 (by omega)
  have hcap4 : digest.capacity - 4 = 16 := by simp [QByteArray.capacity, hcap]
  have hnib : intAnd (charToInt signedChar (digest.data.getD 19 0)) 0xf
      = ((byteAt digest 19 % 16 : Nat) : Int) := by
    rw [intAnd_0xf]
    have := (digest.data.getD 19 0).isLt
    unfold byteAt charToInt
    split <;> omega
  have hb := byteAt_lt digest 19
  have key : ∃ o : Nat, o ≤ 15 ∧
      (if 0 ≤ truncationOffset ∧ truncationOffset < 16 then truncationOffset
        else ((byteAt digest 19 % 16 : Nat) : Int)) = (o : Int) := by
    by_cases h : 0 ≤ truncationOffset ∧ truncationOffset < 16
    · exact ⟨truncationOffset.toNat, by omega, by rw [if_pos h]; omega⟩
    · exact ⟨byteAt digest 19 % 16, by omega, by rw [if_neg h]⟩
  obtain ⟨o, ho, hsel⟩ := key
  have hoff : truncateOffset signedChar digest truncationOffset = some (o : Int) := by
    unfold truncateOffset
    simp only [hc19, h19, hcap4, hnib, hsel, Option.bind_eq_bind, Option.some_bind]
  have e0 := charAt_natCast signedChar digest o (by omega)
  have e1 := charAt_natCast signedChar digest (o + 1) (by omega)
  have e2 := charAt_natCast signedChar digest (o + 2) (by omega)
  have e3 := charAt_natCast signedChar digest (o + 3) (by omega)
  push_cast at e1 e2 e3
  have hreads := truncate_eq_reads signedChar digest truncationOffset
  rw [hoff, Option.some_bind] at hreads
  refine ⟨(o : Int), hoff, by omega, by omega, by omega, ?_, by rw [hc19]; rfl, ?_, ?_, ?_, ?_,
    ?_, hreads⟩
  · rw [hc19, h19]; rfl
  · rw [e0]; rfl
  · rw [e1]; rfl
  · rw [e2]; rfl
  · rw [e3]; rfl
  · rw [hreads, e0, e1, e2, e3]; rfl

/-- C18 (witness): the RFC 4226 digest for counter 1 with truncation offset 16. -/
theorem truncate_index_safe_witness :
    ∃ offset : Int, truncateOffset true ⟨rfcDigest1, 20⟩ 16 = some offset ∧
      0 ≤ offset ∧ offset ≤ 15 ∧ offset + 3 ≤ 19 ∧
      ((⟨rfcDigest1, 20⟩ : QByteArray).charAt true
        ((⟨rfcDigest1, 20⟩ : QByteArray).capacity - 1)).isSome = true ∧
      (⟨rfcDigest1, 20⟩ : QByteArray).capacity - 1 = 19 ∧
      ((⟨rfcDigest1, 20⟩ : QByteArray).charAt true offset).isSome = true ∧
      ((⟨rfcDigest1, 20⟩ : QByteArray).charAt true (offset + 1)).isSome = true ∧
      ((⟨rfcDigest1, 20⟩ : QByteArray).charAt true (offset + 2)).isSome = true ∧
      ((⟨rfcDigest1, 20⟩ : QByteArray).charAt true (offset + 3)).isSome = true ∧
      (truncate true ⟨rfcDigest1, 20⟩ 16).isSome = true ∧
      truncate true ⟨rfcDigest1, 20⟩ 16
        = ((⟨rfcDigest1, 20⟩ : QByteArray).charAt true offset).bind fun b0 =>
          ((⟨rfcDigest1, 20⟩ : QByteArray).charAt true (offset + 1)).bind fun b1 =>
          ((⟨rfcDigest1, 20⟩ : QByteArray).charAt true (offset + 2)).bind fun b2 =>
          ((⟨rfcDigest1, 20⟩ : QByteArray).charAt true (offset + 3)).bind fun b3 =>
            some (intOr (intOr (intOr (intShl (intAnd b0 0x7f) 24)
              (intShl (intAnd b1 0xff) 16)) (intShl (intAnd b2 0xff) 8)) (intAnd b3 0xff)) :=
  truncate_index_safe true ⟨rfcDigest1, 20⟩ 16 (by decide) (by decide)

/-! ## Only the low digits count -/

theorem digitSumFrom_mod (k : Nat) : ∀ (n : Nat) (dbl : Bool),
    digitSumFrom k (n % 10 ^ k) dbl = digitSumFrom k n dbl := by
  induction k with
  | zero => intro n dbl; rfl
  | succ k ih =>
    intro n dbl
    have h1 : n % 10 ^ (k + 1) % 10 = n % 10 :=
      Nat.mod_mod_of_dvd n (dvd_pow_self 10 (Nat.succ_ne_zero k))
    have h2 : n % 10 ^ (k + 1) / 10 = n / 10 % 10 ^ k := by
      rw [pow_succ']; exact Nat.mod_mul_right_div_self n 10 (10 ^ k)
    simp only [digitSumFrom, h1, h2, ih]

/-- C19: `calcChecksum` reads only the low `digits` decimal digits of `num`.  For a non-negative
`long` value `num` and `digits >= 0`, `calcChecksum(num, digits)` equals
`calcChecksum(num mod 10^digits, digits)`, and any other such number with the same low `digits`
digits gets the same check digit. -/
theorem calcChecksum_low_digits (num num2 digits : Int) (h0 : 0 ≤ num) (hmax : num < 2 ^ 63)
    (h2 : 0 ≤ num2) (hmax2 : num2 < 2 ^ 63) (_hd : 0 ≤ digits) :
    calcChecksum num digits = calcChecksum (Int.tmod num (10 ^ digits.toNat)) digits ∧
    (Int.tmod num2 (10 ^ digits.toNat) = Int.tmod num (10 ^ digits.toNat) →
      calcChecksum num2 digits = calcChecksum num digits) := by
  have key : ∀ x : Int, 0 ≤ x → x < 2 ^ 63 →
      calcChecksum x digits = calcChecksum (Int.tmod x (10 ^ digits.toNat)) digits := by
    intro x hx0 hxm
    have hx : x = ((x.toNat : Nat) : Int) := (Int.toNat_of_nonneg hx0).symm
    have hlt : x.toNat < 2 ^ 63 := by omega
    have hmod : Int.tmod x (10 ^ digits.toNat)
        = ((x.toNat % 10 ^ digits.toNat : Nat) : Int) := by
      rw [Int.ofNat_tmod]; push_cast; rw [← hx]
    have hlt2 : x.toNat % 10 ^ digits.toNat < 2 ^ 63 :=
      lt_of_le_of_lt (Nat.mod_le _ _) hlt
    rw [hmod, calcChecksum_eq _ digits hlt2, digitSumFrom_mod]
    conv_lhs => rw [hx]
    exact calcChecksum_eq _ digits hlt
  refine ⟨key num h0 hmax, ?_⟩
  intro heq
  rw [key num2 h2 hmax2, key num h0 hmax, heq]

/-- C19 (witness): 1755224 and 755224 agree on their low six digits. -/
theorem calcChecksum_low_digits_witness :
    calcChecksum 1755224 6 = calcChecksum (Int.tmod 1755224 (10 ^ (6 : Int).toNat)) 6 ∧
    (Int.tmod 755224 (10 ^ (6 : Int).toNat) = Int.tmod 1755224 (10 ^ (6 : Int).toNat) →
      calcChecksum 755224 6 = calcChecksum 1755224 6) :=
  calcChecksum_low_digits 1755224 755224 6 (by decide) (by decide) (by decide) (by decide)
    (by decide)

/-! ## Detection of single-digit errors -/

theorem substitute_injective :
    ∀ x y : Fin 10, substitute x.val = substitute y.val → x = y := by decide

theorem replaceDigit_zero (n e : Nat) (he : e < 10) :
    replaceDigit n 0 e % 10 = e ∧ replaceDigit n 0 e / 10 = n / 10 := by
  unfold replaceDigit
  simp only [pow_zero, Nat.div_one, Nat.mul_one]
  omega

theorem replaceDigit_succ (n j e : Nat) :
    replaceDigit n (j + 1) e % 10 = n % 10 ∧
    replaceDigit n (j + 1) e / 10 = replaceDigit (n / 10) j e := by
  unfold replaceDigit
  have hdiv : n / 10 ^ (j + 1) = n / 10 / 10 ^ j := by
    rw [Nat.div_div_eq_div_mul, pow_succ']
  have hle : n / 10 / 10 ^ j % 10 * 10 ^ j ≤ n / 10 :=
    le_trans (Nat.mul_le_mul_right _ (Nat.mod_le _ _)) (Nat.div_mul_le_self _ _)
  have hD : n / 10 / 10 ^ j % 10 * 10 ^ (j + 1) = 10 * (n / 10 / 10 ^ j % 10 * 10 ^ j) := by
    rw [pow_succ]; ring
  have hE : e * 10 ^ (j + 1) = 10 * (e * 10 ^ j) := by rw [pow_succ]; ring
  rw [hdiv, hD, hE]
  generalize n / 10 / 10 ^ j % 10 * 10 ^ j = D at hle ⊢
  generalize e * 10 ^ j = E
  omega

theorem digitSumFrom_replace (j : Nat) : ∀ (k n : Nat) (dbl : Bool) (e : Nat),
    j < k → e < 10 →
    digitSumFrom k (replaceDigit n j e) dbl
        + (if (j % 2 = 0 ↔ dbl = true) then substitute (n / 10 ^ j % 10) else n / 10 ^ j % 10)
      = digitSumFrom k n dbl + (if (j % 2 = 0 ↔ dbl = true) then substitute e else e) := by
  induction j with
  | zero =>
    intro k n dbl e hk he
    obtain ⟨k, rfl⟩ : ∃ k0, k = k0 + 1 := ⟨k - 1, by omega⟩
    obtain ⟨h1, h2⟩ := replaceDigit_zero n e he
    simp only [digitSumFrom, h1, h2, pow_zero, Nat.div_one]
    cases dbl <;> simp <;> omega
  | succ j ih =>
    intro k n dbl e hk he
    obtain ⟨k, rfl⟩ : ∃ k0, k = k0 + 1 := ⟨k - 1, by omega⟩
    obtain ⟨h1, h2⟩ := replaceDigit_succ n j e
    have hdiv : n / 10 ^ (j + 1) = n / 10 / 10 ^ j := by
      rw [Nat.div_div_eq_div_mul, pow_succ']
    have hpar : ((j + 1) % 2 = 0 ↔ dbl = true) ↔ (j % 2 = 0 ↔ (!dbl) = true) := by
      cases dbl <;> simp <;> omega
    have := ih k (n / 10) (!dbl) e (by omega) he
    simp only [digitSumFrom, h1, h2, hdiv, hpar]
    omega

theorem checkDigit_differs (t1 t2 a b : Nat) (ha : a ≤ 9) (hb : b ≤ 9) (hab : a ≠ b)
    (h : t2 + a = t1 + b) : (10 - t2 % 10) % 10 ≠ (10 - t1 % 10) % 10 := by
  omega

/-- C16: single-digit error detection.  Let `v = num * 10 + calcChecksum(num, digits)` for a
non-negative `long` value `num < 10^digits`, `digits >= 1`.  Replacing the decimal digit of `v`
at any position `j <= digits` by a different digit `e` gives a number `v2` (whose leading part
`v2 div 10` is still a `long` value) that is not a valid code: `calcChecksum(v2 div 10, digits)`
is not `v2 mod 10`. -/
theorem calcChecksum_single_digit_error (num digits c : Int) (j e : Nat)
    (h0 : 0 ≤ num) (hmax : num < 2 ^ 63) (_hd : 1 ≤ digits) (_hfit : num < 10 ^ digits.toNat)
    (hc : calcChecksum num digits = some c)
    (hj : j ≤ digits.toNat) (he : e < 10)
    (hne : e ≠ (num * 10 + c).toNat / 10 ^ j % 10)
    (hmax2 : replaceDigit (num * 10 + c).toNat j e / 10 < 2 ^ 63) :
    calcChecksum ((replaceDigit (num * 10 + c).toNat j e / 10 : Nat) : Int) digits
      ≠ some ((replaceDigit (num * 10 + c).toNat j e % 10 : Nat) : Int) := by
  have hnum : num = ((num.toNat : Nat) : Int) := (Int.toNat_of_nonneg h0).symm
  have hlt : num.toNat < 2 ^ 63 := by omega
  have hcn := calcChecksum_eq num.toNat digits hlt
  rw [← hnum, hc] at hcn
  have hcv : c = (((10 - digitSumFrom digits.toNat num.toNat true % 10) % 10 : Nat) : Int) :=
    Option.some.inj hcn
  have hclt : (10 - digitSumFrom digits.toNat num.toNat true % 10) % 10 < 10 :=
    Nat.mod_lt _ (by norm_num)
  have hv : (num * 10 + c).toNat
      = num.toNat * 10 + (10 - digitSumFrom digits.toNat num.toNat true % 10) % 10 := by
    rw [hcv]; omega
  rw [hv] at hne hmax2 ⊢
  have hvmod : (num.toNat * 10 + (10 - digitSumFrom digits.toNat num.toNat true % 10) % 10) % 10
      = (10 - digitSumFrom digits.toNat num.toNat true % 10) % 10 := by omega
  have hvdiv : (num.toNat * 10 + (10 - digitSumFrom digits.toNat num.toNat true % 10) % 10) / 10
      = num.toNat := by omega
  cases j with
  | zero =>
    obtain ⟨h1, h2⟩ := replaceDigit_zero
      (num.toNat * 10 + (10 - digitSumFrom digits.toNat num.toNat true % 10) % 10) e he
    rw [h1, h2, hvdiv, ← hnum, hc, hcv]
    simp only [pow_zero, Nat.div_one, hvmod] at hne
    intro habs
    have := Option.some.inj habs
    omega
  | succ j =>
    obtain ⟨h1, h2⟩ := replaceDigit_succ
      (num.toNat * 10 + (10 - digitSumFrom digits.toNat num.toNat true % 10) % 10) j e
    rw [h2, hvdiv] at hmax2
    rw [h1, h2, hvdiv, hvmod, calcChecksum_eq _ digits hmax2]
    have hdig : (num.toNat * 10 + (10 - digitSumFrom digits.toNat num.toNat true % 10) % 10)
        / 10 ^ (j + 1) % 10 = num.toNat / 10 ^ j % 10 := by
      rw [pow_succ', ← Nat.div_div_eq_div_mul, hvdiv]
    rw [hdig] at hne
    have hrep := digitSumFrom_replace j digits.toNat num.toNat true e (by omega) he
    have hdlt : num.toNat / 10 ^ j % 10 < 10 := Nat.mod_lt _ (by norm_num)
    have hs1 := substitute_le _ hdlt
    have hs2 := substitute_le _ he
    have hinj : substitute (num.toNat / 10 ^ j % 10) ≠ substitute e := by
      intro h
      have := substitute_injective ⟨num.toNat / 10 ^ j % 10, hdlt⟩ ⟨e, he⟩ h
      exact hne (Fin.mk.inj this).symm
    intro habs
    have hval := Option.some.inj habs
    have hnat : (10 - digitSumFrom digits.toNat (replaceDigit num.toNat j e) true % 10) % 10
        = (10 - digitSumFrom digits.toNat num.toNat true % 10) % 10 := by
      exact_mod_cast hval
    by_cases hp : (j % 2 = 0 ↔ true = true)
    · rw [if_pos hp, if_pos hp] at hrep
      exact checkDigit_differs _ _ _ _ hs1 hs2 hinj hrep hnat
    · rw [if_neg hp, if_neg hp] at hrep
      exact checkDigit_differs _ _ _ _ (by omega) (by omega) (fun h => hne h.symm) hrep hnat

/-- C16 (witness): in the valid code 7552243 the digit at position 3 is replaced by 9. -/
theorem calcChecksum_single_digit_error_witness :
    calcChecksum ((replaceDigit ((755224 : Int) * 10 + 3).toNat 3 9 / 10 : Nat) : Int) 6
      ≠ some ((replaceDigit ((755224 : Int) * 10 + 3).toNat 3 9 % 10 : Nat) : Int) :=
  calcChecksum_single_digit_error 755224 6 3 3 9 (by decide) (by decide) (by decide) (by decide)
    (by decide) (by decide) (by decide) (by decide) (by decide)

end HOTP
